import Mathlib

/-!
# A verification model of the `web_family_tree` relationship-graph engine

This file gives a shallow embedding, in Lean 4, of the graph-manipulating
core of the `web_family_tree` application and proves properties of it.

Strings of the source language are modelled as `List Char` (the type `Name`
below), with the string operations the source uses (`trim`, `toLowerCase`,
`split`, `replace`, `indexOf`, template concatenation) defined structurally
so that every definition is executable and every predicate decidable.

The embedded definitions mirror, operation by operation and in the source's
order of checks:
* `handleManualAdd`, `handleNodeNameChange`, `handleFileUpload` (the CSV
  branch) and `hierarchicalData` from `src/App.tsx`;
* `parseCSV`, `parseGEDCOM` and its inner `detectCyclesIterative` from
  `src/components/Import.tsx`;
* `handleDownloadCSV` from `src/components/ExportModal.tsx`.

React state updates (`setNodes`/`setLinks`/`setError`) are modelled by
returning the new `(nodes, links)` pair together with the error message the
handler produces (if any); early returns of the handlers become the
corresponding branches.
-/

set_option maxRecDepth 40000

namespace WebFamilyTree

/-- A member name / a piece of text, modelled as its list of characters. -/
abbrev Name := List Char

/-- The character list of a Lean string literal, used to write concrete
source-level strings in the model. -/
def str (s : String) : Name := s.data

/-- A directed parent→child relationship edge (`AppLink` in `src/types`):
`source` is the parent, `target` the child. -/
structure Link where
  source : Name
  target : Name
deriving DecidableEq, Repr

/-- The graph part of the `App` component state: the list of individuals
(each `AppNode` is just its `id`, so we keep the list of ids) and the list
of edges. -/
structure AppState where
  nodes : List Name
  links : List Link
deriving DecidableEq, Repr

/-! ## String primitives (JS semantics) -/

/-- `String.prototype.toLowerCase`, restricted to per-character lowering. -/
def jsToLower (s : Name) : Name := s.map Char.toLower

/-- Whitespace as removed by `String.prototype.trim`. -/
def isWs (c : Char) : Bool := c.isWhitespace

/-- `String.prototype.trim`: drop whitespace at both ends. -/
def jsTrim (s : Name) : Name :=
  ((s.dropWhile isWs).reverse.dropWhile isWs).reverse

/-- `String.prototype.split(sep)` for a one-character separator, as a
structural recursion (the reference definition the splitting lemmas are
proved against). `"".split(c) = [""]`, matching JS. -/
def splitOnCharRec (c : Char) : Name → List Name
  | [] => [[]]
  | x :: xs =>
    match splitOnCharRec c xs with
    | [] => [[]]
    | r :: rs => if x = c then [] :: r :: rs else (x :: r) :: rs

/-- Accumulator worker for `splitOnChar`: `cur` is the piece being read
(reversed), `acc` the finished pieces (reversed). -/
def splitOnCharGo (c : Char) : Name → Name → List Name → List Name
  | [], cur, acc => (cur.reverse :: acc).reverse
  | x :: xs, cur, acc =>
    if x = c then splitOnCharGo c xs [] (cur.reverse :: acc)
    else splitOnCharGo c xs (x :: cur) acc

/-- `String.prototype.split(sep)` for a one-character separator, in the
accumulator form whose evaluation recursion stays shallow
(`splitOnChar_eq_rec` proves it equal to the reference definition). -/
def splitOnChar (c : Char) (s : Name) : List Name := splitOnCharGo c s [] []

/-- `String.prototype.replace(/c/g, '')`: remove every occurrence of the
character `c`. -/
def removeAll (c : Char) (s : Name) : Name := s.filter (fun x => x ≠ c)

/-- `Array.prototype.indexOf` on a list of names: index of the first
occurrence, or `-1`. -/
def jsIndexOf (l : List Name) (x : Name) : Int :=
  match l with
  | [] => -1
  | y :: ys => if y = x then 0 else
    match jsIndexOf ys x with
    | -1 => -1
    | i => i + 1

/-- `Set.prototype.add` on an insertion-ordered string set modelled as a
duplicate-free list: append if absent. -/
def setAdd (l : List Name) (x : Name) : List Name :=
  if x ∈ l then l else l ++ [x]

/-- `new Set(array)` / iterating `Array.from(set)`: first-occurrence
deduplication preserving insertion order. -/
def dedupFirst (l : List Name) : List Name := l.foldl setAdd []

/-- `Set.prototype.add` for the sets every consumer only queries with
`Set.prototype.has` (the GEDCOM `linkSet` and `problematicLinks`, and the
breadth-first `visited` sets): membership is insertion-order independent,
so these are kept as prepend lists, which evaluate with shallow
recursion. -/
def setIns (l : List Name) (x : Name) : List Name :=
  if x ∈ l then l else x :: l

/-! ## Manual mutations (`src/App.tsx`) -/

/-- The `relationshipType` argument of `handleManualAdd`. -/
inductive RelType where
  | parent
  | child
deriving DecidableEq, Repr

/-- `handleManualAdd` from `src/App.tsx` (lines 82–145).

Inputs: the current graph state, the currently selected node (if any), the
typed `name` and the optional `relationshipType`. Output: the state after
the call together with the error message the call surfaces, if it rejects.
Every early `return` of the source becomes a branch returning the unchanged
state and the corresponding message. -/
def handleManualAdd (s : AppState) (selectedNode : Option Name)
    (name : Name) (relationshipType : Option RelType) : AppState × Option Name :=
  let trimmedName := jsTrim name
  if trimmedName = [] then
    (s, some (str "Member name is required."))
  else
    match selectedNode with
    | none =>
      -- SCENARIO: Adding a root node (no node selected).
      if s.nodes.any (fun n => jsToLower n == jsToLower trimmedName) then
        (s, some (str "A member with this name already exists."))
      else
        ({ s with nodes := s.nodes ++ [trimmedName] }, none)
    | some existingNodeName =>
      match relationshipType with
      | none =>
        (s, some (str "A relationship type (parent or child) must be specified."))
      | some relTy =>
        let newNodeName := trimmedName
        if jsToLower existingNodeName == jsToLower newNodeName then
          (s, some (str "The new member must have a different name from the selected member."))
        else
          let parentName := match relTy with
            | .child => existingNodeName
            | .parent => newNodeName
          let childName := match relTy with
            | .child => newNodeName
            | .parent => existingNodeName
          if s.links.any (fun l => jsToLower l.target == jsToLower childName) then
            (s, some (childName ++ str " already has a parent. A person can only have one parent in this tree structure."))
          else if s.links.any (fun l =>
              jsToLower l.source == jsToLower parentName &&
              jsToLower l.target == jsToLower childName) then
            (s, some (str "This relationship already exists."))
          else
            let nodeSet := setAdd (setAdd (dedupFirst s.nodes) parentName) childName
            ({ nodes := nodeSet, links := s.links ++ [⟨parentName, childName⟩] }, none)

/-- `handleNodeNameChange` from `src/App.tsx` (lines 179–207): rename an
individual, cascading the new name into every edge endpoint equal (by
exact string comparison) to the old one. -/
def handleNodeNameChange (s : AppState) (oldName newName : Name) :
    AppState × Option Name :=
  let trimmedNewName := jsTrim newName
  if trimmedNewName = [] then
    (s, some (str "Member name cannot be empty."))
  else if jsToLower trimmedNewName == jsToLower oldName then
    (s, none)  -- No change, just silently ignore.
  else if s.nodes.any (fun n => jsToLower n == jsToLower trimmedNewName) then
    (s, some (str "A member with this name already exists."))
  else
    ({ nodes := s.nodes.map (fun n => if n == oldName then trimmedNewName else n),
       links := s.links.map (fun l =>
         ⟨if l.source == oldName then trimmedNewName else l.source,
          if l.target == oldName then trimmedNewName else l.target⟩) }, none)

/-! ## The data-model invariants (§3 of the specification) -/

/-- Invariant 1: every edge's endpoints exist in the individual set. -/
def Inv1 (s : AppState) : Prop :=
  ∀ l ∈ s.links, l.source ∈ s.nodes ∧ l.target ∈ s.nodes

/-- Invariant 2: no two edges share the same child. -/
def Inv2 (s : AppState) : Prop :=
  s.links.Pairwise (fun l₁ l₂ => l₁.target ≠ l₂.target)

/-- A directed path of exactly `n` edges from `a` to `b` over `links`,
as a Boolean test (exponential in general, only used on small inputs and
in proofs). -/
def pathBool (links : List Link) : Nat → Name → Name → Bool
  | 0, a, b => a == b
  | n + 1, a, b => links.any (fun l => l.source == a && pathBool links n l.target b)

/-- Invariant 3: no directed cycle of any positive length. -/
def Inv3 (s : AppState) : Prop :=
  ∀ n : Nat, ∀ a : Name, pathBool s.links (n + 1) a a = false

/-- Invariant 4: no self-edge. -/
def Inv4 (s : AppState) : Prop :=
  ∀ l ∈ s.links, l.source ≠ l.target

/-- Invariant 5: individual names are unique case-insensitively. -/
def Inv5 (s : AppState) : Prop :=
  s.nodes.Pairwise (fun n₁ n₂ => jsToLower n₁ ≠ jsToLower n₂)

instance (s : AppState) : Decidable (Inv1 s) := by unfold Inv1; infer_instance

instance (s : AppState) : Decidable (Inv2 s) := by unfold Inv2; infer_instance

instance (s : AppState) : Decidable (Inv4 s) := by unfold Inv4; infer_instance

instance (s : AppState) : Decidable (Inv5 s) := by unfold Inv5; infer_instance

/-! ## Demonstration states -/

/-- Individuals A, B, C with edges A→B and B→C. -/
def cycleDemoPre : AppState :=
  ⟨[str "A", str "B", str "C"], [⟨str "A", str "B"⟩, ⟨str "B", str "C"⟩]⟩

/-! ## CSV import and export -/

/-- `Array.prototype.join(sep)`. -/
def joinWith (sep : Name) : List Name → Name
  | [] => []
  | [x] => x
  | x :: y :: xs => x ++ sep ++ joinWith sep (y :: xs)

/-- The shared data-row loop of both CSV parsers (`src/App.tsx` lines
55–65 and `src/components/Import.tsx` lines 35–45): split each row on
commas, trim and unquote each field, and keep a `(parent, child)` link
when both fields are non-empty, collecting the endpoints into the
insertion-ordered node set. -/
def csvRowStep (parentIndex childIndex : Int) (acc : List Link × List Name)
    (row : Name) : List Link × List Name :=
  let fields := (splitOnChar ',' row).map (fun h => removeAll '"' (jsTrim h))
  let parent := fields.getD parentIndex.toNat []
  let child := fields.getD childIndex.toNat []
  if parent ≠ [] ∧ child ≠ [] then
    (acc.1 ++ [⟨parent, child⟩], setAdd (setAdd acc.2 parent) child)
  else acc

/-- The row extraction both CSV parsers start with: split the text on
newlines and keep the rows that are non-empty after trimming. -/
def appCsvRows (text : Name) : List Name :=
  (splitOnChar '\n' text).filter (fun row => jsTrim row ≠ [])

/-- The CSV branch of `handleFileUpload` from `src/App.tsx` (lines 27–80):
the body of the `onload` callback. On success the parsed `(nodes, links)`
replace the graph state (`setNodes`/`setLinks`); each early return with
`setError` becomes an `Except.error` carrying the message. -/
def appCsvImport (text : Name) : Except Name AppState :=
  if text = [] then .error (str "File is empty or could not be read.")
  else
    let rows := appCsvRows text
    if rows.length < 2 then
      .error (str "CSV must have a header row and at least one data row.")
    else
      let header := (splitOnChar ',' (jsToLower (jsTrim (rows.headD [])))).map (removeAll '"')
      let parentIndex := jsIndexOf header (str "parent")
      let childIndex := jsIndexOf header (str "child")
      if parentIndex = -1 ∨ childIndex = -1 then
        .error (str "CSV must contain \"parent\" and \"child\" columns.")
      else
        let r := (rows.drop 1).foldl (csvRowStep parentIndex childIndex) ([], [])
        .ok ⟨r.2, r.1⟩

/-- The header fields as computed by `parseCSV` in
`src/components/Import.tsx` (line 20): the first kept row, trimmed and
lower-cased, split on commas, each field unquoted and trimmed. -/
def importCsvHeader (text : Name) : List Name :=
  (splitOnChar ',' (jsToLower (jsTrim ((appCsvRows text).headD [])))).map
    (fun h => jsTrim (removeAll '"' h))

/-- `parseCSV` from `src/components/Import.tsx` (lines 13–49). Identical
to the `App.tsx` CSV branch except that header fields are additionally
trimmed and the missing-column error message lists the missing column
names. -/
def importParseCSV (text : Name) : Except Name (List Name × List Link) :=
  let rows := appCsvRows text
  if rows.length < 2 then
    .error (str "CSV must have a header row and at least one data row.")
  else
    let header := importCsvHeader text
    let parentIndex := jsIndexOf header (str "parent")
    let childIndex := jsIndexOf header (str "child")
    if parentIndex = -1 ∨ childIndex = -1 then
      let missingColumns :=
        (if parentIndex = -1 then [str "\"parent\""] else []) ++
        (if childIndex = -1 then [str "\"child\""] else [])
      .error (str "Improperly formatted CSV: Missing required column(s): " ++
        joinWith (str " and ") missingColumns ++
        str ". The CSV must have both \"parent\" and \"child\" columns.")
    else
      let r := (rows.drop 1).foldl (csvRowStep parentIndex childIndex) ([], [])
      .ok (r.2, r.1)

/-- One exported CSV data line `"parent","child"` (the template literal in
`handleDownloadCSV`, `src/components/ExportModal.tsx` line 50). -/
def csvLine (l : Link) : Name :=
  str "\"" ++ l.source ++ str "\",\"" ++ l.target ++ str "\""

/-- `handleDownloadCSV` from `src/components/ExportModal.tsx`
(lines 48–53): the text content of the exported CSV file. -/
def exportCSV (links : List Link) : Name :=
  str "parent,child\n" ++ joinWith (str "\n") (links.map csvLine)

/-- A name that survives the CSV text format unchanged: non-empty, free of
newline, comma and double-quote, and stable under trimming. -/
def CleanName (n : Name) : Prop :=
  n ≠ [] ∧ '\n' ∉ n ∧ ',' ∉ n ∧ '"' ∉ n ∧ jsTrim n = n

instance (n : Name) : Decidable (CleanName n) := by unfold CleanName; infer_instance

/-- A manual graph mutation as offered by the UI: a `handleManualAdd`
call (member add or relationship add) or a `handleNodeNameChange` call. -/
inductive ManualOp where
  | add (sel : Option Name) (name : Name) (rt : Option RelType)
  | rename (oldName newName : Name)

/-- The state after one manual mutation (the error, if any, is dropped:
on rejection the state is unchanged). -/
def applyManual (s : AppState) : ManualOp → AppState
  | .add sel name rt => (handleManualAdd s sel name rt).1
  | .rename o n => (handleNodeNameChange s o n).1

/-- The state after a sequence of manual mutations. -/
def applyManualSeq (s : AppState) (ops : List ManualOp) : AppState :=
  ops.foldl applyManual s

/-- Individuals A, B, C with the single edge A→B: C is isolated. -/
def rtDemo : AppState :=
  ⟨[str "A", str "B", str "C"], [⟨str "A", str "B"⟩]⟩

/-! ## Hierarchy builder (`src/App.tsx` `hierarchicalData`, lines 214–244) -/

/-- A `HierarchicalNode`: an id and its list of child nodes. -/
structure HNode where
  id : Name
  children : List HNode
deriving Repr

/-- The numeric value of a digit string (base 10). -/
def digitsVal (s : Name) : Nat :=
  s.foldl (fun acc c => acc * 10 + (c.toNat - '0'.toNat)) 0

/-- Whether a string is an ECMAScript array index: the canonical decimal
representation of an integer below `2^32 - 1`. JS objects list such keys
first, in ascending numeric order. -/
def isArrayIndex (s : Name) : Bool :=
  match s with
  | [] => false
  | ['0'] => true
  | c :: _ => c != '0' && s.all (fun d => d.isDigit) && decide (digitsVal s < 2 ^ 32 - 1)

/-- Insertion into a list kept ascending by numeric value. -/
def insertAsc (x : Name) : List Name → List Name
  | [] => [x]
  | y :: ys => if digitsVal x ≤ digitsVal y then x :: y :: ys else y :: insertAsc x ys

/-- Insertion sort by numeric value. -/
def sortByVal (l : List Name) : List Name := l.foldr insertAsc []

/-- ECMAScript own-property order of a JS object's string keys (as
enumerated by `Object.values`): array-index keys first in ascending
numeric order, then the remaining keys in property creation order. -/
def jsKeyOrder (keys : List Name) : List Name :=
  sortByVal (keys.filter (fun k => isArrayIndex k)) ++
    keys.filter (fun k => !isArrayIndex k)

/-- The keys of `nodeMap`: one property per node id, created in list
order (duplicate ids keep their first position). -/
def nodeMapKeys (s : AppState) : List Name := dedupFirst s.nodes

/-- The ids pushed onto `nodeMap[p].children`, in link order; a link
contributes only when both endpoints are `nodeMap` keys. -/
def nodeChildIds (s : AppState) (p : Name) : List Name :=
  (s.links.filter (fun l =>
    l.source == p && l.source ∈ nodeMapKeys s && l.target ∈ nodeMapKeys s)).map
    (fun l => l.target)

/-- The `childrenIds` set: targets of the links whose endpoints are both
`nodeMap` keys. -/
def childrenIds (s : AppState) : List Name :=
  s.links.foldl (fun acc l =>
    if l.source ∈ nodeMapKeys s ∧ l.target ∈ nodeMapKeys s then setAdd acc l.target
    else acc) []

/-- The hierarchical node reachable from `n`, materialized to depth
`fuel`. The JS structure is a web of mutable references; on the acyclic
graphs the builder is specified for, depth `s.nodes.length` reproduces it
exactly (a simple path can visit each node at most once). -/
def buildNode (s : AppState) : Nat → Name → HNode
  | 0, n => ⟨n, []⟩
  | fuel + 1, n => ⟨n, (nodeChildIds s n).map (buildNode s fuel)⟩

/-- The ids of the computed roots, in `Object.values` enumeration order:
the keys that are no link's target. -/
def rootIds (s : AppState) : List Name :=
  (jsKeyOrder (nodeMapKeys s)).filter (fun n => n ∉ childrenIds s)

/-- `hierarchicalData` from `src/App.tsx` (lines 214–244): `none` for an
empty node list; the degenerate first-value fallback when every node has
a parent; the single root directly; and the virtual "Family" wrapper for
several roots. -/
def hierarchicalData (s : AppState) : Option HNode :=
  if s.nodes.length = 0 then none
  else
    match rootIds s with
    | [] =>
      if 0 < (nodeMapKeys s).length then
        some (buildNode s s.nodes.length ((jsKeyOrder (nodeMapKeys s)).headD []))
      else none
    | [r] => some (buildNode s s.nodes.length r)
    | r₁ :: r₂ :: rest =>
      some ⟨str "Family", (r₁ :: r₂ :: rest).map (buildNode s s.nodes.length)⟩

/-! ## GEDCOM import (`src/components/Import.tsx` `parseGEDCOM`, lines 51–249) -/

/-- `parseInt(s)` (radix auto-detection): skip leading whitespace, an
optional sign, a `0x`/`0X` prefix selecting hexadecimal, then the longest
digit run; `none` models `NaN`. -/
def jsParseInt (s : Name) : Option Int :=
  let s := s.dropWhile isWs
  let (sign, rest) : Int × Name := match s with
    | '-' :: r => (-1, r)
    | '+' :: r => (1, r)
    | r => (1, r)
  match rest with
  | '0' :: 'x' :: r | '0' :: 'X' :: r =>
    let ds := r.takeWhile (fun c => c.isDigit || ('a' ≤ c && c ≤ 'f') || ('A' ≤ c && c ≤ 'F'))
    if ds = [] then none
    else some (sign * (ds.foldl (fun acc c =>
      acc * 16 + (if c.isDigit then c.toNat - '0'.toNat
        else if 'a' ≤ c then c.toNat - 'a'.toNat + 10
        else c.toNat - 'A'.toNat + 10)) 0 : Nat))
  | r =>
    let ds := r.takeWhile Char.isDigit
    if ds = [] then none
    else some (sign * (digitsVal ds : Nat))

/-- The two GEDCOM record kinds the parser tracks. -/
inductive GType where
  | indi
  | fam
deriving DecidableEq, Repr

/-- A family record: `husband`/`wife` hold the referenced individual id
(`[]` when the role is absent or its reference token is missing, like the
falsy `undefined`/`""` in JS), `children` the child references in file
order. -/
structure GFam where
  husband : Name := []
  wife : Name := []
  children : List Name := []
deriving DecidableEq, Repr

/-- The scanner state of `parseGEDCOM`'s line loop. -/
structure GState where
  individuals : List (Name × Name)
  families : List (Name × GFam)
  currentId : Option Name
  currentType : Option GType
  currentName : Name
  currentFamily : Option GFam
deriving DecidableEq, Repr

/-- `Map.prototype.set`: overwrite in place or append, keeping first
insertion position. -/
def mapSet {β : Type} (m : List (Name × β)) (k : Name) (v : β) : List (Name × β) :=
  if m.any (fun p => p.1 == k) then
    m.map (fun p => if p.1 == k then (k, v) else p)
  else m ++ [(k, v)]

/-- `Map.prototype.get`. -/
def mapGet {β : Type} (m : List (Name × β)) (k : Name) : Option β :=
  (m.find? (fun p => p.1 == k)).map (fun p => p.2)

/-- The "save previous entity" block (run on each level-0 line and once
after the loop): a complete `INDI` with a non-empty name, or a complete
`FAM`, is written to its map. -/
def saveEntity (st : GState) : GState :=
  match st.currentType, st.currentId with
  | some .indi, some cid =>
    if st.currentName ≠ [] then
      { st with individuals := mapSet st.individuals cid st.currentName }
    else st
  | some .fam, some cid =>
    match st.currentFamily with
    | some f => { st with families := mapSet st.families cid f }
    | none => st
  | _, _ => st

/-- One iteration of the line loop. `none` models the `TypeError` a
level-0 line without a second token raises (`tag.startsWith` on
`undefined`), which the surrounding `try` turns into a parse failure. -/
def processLine (st : GState) (line : Name) : Option GState :=
  let parts := splitOnChar ' ' line
  let level := jsParseInt (parts.headD [])
  let tag? := parts.get? 1
  if level = some 0 then
    let st := saveEntity st
    match tag? with
    | none => none
    | some tag =>
      match tag with
      | '@' :: _ =>
        if 2 < parts.length then
          some { st with
            currentId := some tag,
            currentType :=
              if parts.getD 2 [] = str "INDI" then some .indi
              else if parts.getD 2 [] = str "FAM" then some .fam
              else none,
            currentName := [],
            currentFamily := some {} }
        else some st
      | _ => some st
  else if level = some 1 ∧ st.currentType = some .indi then
    if tag? = some (str "NAME") then
      some { st with currentName := jsTrim (removeAll '/' (joinWith [' '] (parts.drop 2))) }
    else some st
  else if level = some 1 ∧ st.currentType = some .fam then
    match tag? with
    | none => some st
    | some tag =>
      if tag = str "HUSB" ∨ tag = str "WIFE" then
        match st.currentFamily with
        | some f =>
          let f' := if tag = str "HUSB" then { f with husband := parts.getD 2 [] }
            else { f with wife := parts.getD 2 [] }
          some { st with currentFamily := some f' }
        | none => some st
      else if tag = str "CHIL" then
        match st.currentFamily with
        | some f =>
          some { st with currentFamily := some { f with children := f.children ++ [parts.getD 2 []] } }
        | none => some st
      else some st
  else some st

/-- The line loop: trim each line, drop empty ones, scan, save the last
entity. -/
def gedcomScan (text : Name) : Option GState :=
  let lines := ((splitOnChar '\n' text).map jsTrim).filter (fun l => l ≠ [])
  (lines.foldlM processLine ⟨[], [], none, none, [], none⟩).map saveEntity

/-- The parent-name list of one family (husband first, then wife), with
each found parent added to the node set. -/
def famParents (individuals : List (Name × Name)) (f : GFam) (ns : List Name) :
    List Name × List Name :=
  let pr :=
    if f.husband ≠ [] then
      match mapGet individuals f.husband with
      | some hn => if hn ≠ [] then ([hn], setAdd ns hn) else ([], ns)
      | none => ([], ns)
    else ([], ns)
  if f.wife ≠ [] then
    match mapGet individuals f.wife with
    | some wn => if wn ≠ [] then (pr.1 ++ [wn], setAdd pr.2 wn) else pr
    | none => pr
  else pr

/-- Processing one child reference of a family: resolve its name, add it
to the node set, and link every parent to it, skipping self-loops and
already-seen `parent->child` keys. The accumulator is
`(nodeSet, links, linkSet)`. -/
def childStep (individuals : List (Name × Name)) (parents : List Name)
    (acc : List Name × List Link × List Name) (cid : Name) :
    List Name × List Link × List Name :=
  match mapGet individuals cid with
  | none => acc
  | some cn =>
    if cn = [] then acc
    else
      let ns := setAdd acc.1 cn
      if parents = [] then (ns, acc.2.1, acc.2.2)
      else
        let r := parents.foldl (fun acc2 p =>
          let key := p ++ str "->" ++ cn
          if key ∉ acc2.2 ∧ p ≠ cn then (acc2.1 ++ [⟨p, cn⟩], setIns acc2.2 key)
          else acc2) (acc.2.1, acc.2.2)
        (ns, r.1, r.2)

/-- Processing one family: compute its parents, then link them to each
child. -/
def famStep (individuals : List (Name × Name))
    (acc : List Name × List Link × List Name) (f : GFam) :
    List Name × List Link × List Name :=
  let pr := famParents individuals f acc.1
  f.children.foldl (childStep individuals pr.1) (pr.2, acc.2.1, acc.2.2)

/-- The candidate `(nodeSet, links)` a GEDCOM text produces before the
bulk cycle pass (`families.forEach` block, lines 117–154). -/
def gedcomCandidates (text : Name) : Option (List Name × List Link) :=
  (gedcomScan text).map (fun st =>
    let r := st.families.foldl (fun acc kf => famStep st.individuals acc kf.2) ([], [], [])
    (r.1, r.2.1))

/-! ## Bulk cycle detection (`detectCyclesIterative`, lines 157–235) -/

/-- Push `v` onto `k`'s adjacency list, creating the entry on first use
(so keys keep first-insertion order, values keep push order). -/
def adjAdd (m : List (Name × List Name)) (k v : Name) : List (Name × List Name) :=
  if m.any (fun p => p.1 == k) then
    m.map (fun p => if p.1 == k then (p.1, p.2 ++ [v]) else p)
  else m ++ [(k, [v])]

/-- The forward adjacency map of a link list. -/
def buildAdj (links : List Link) : List (Name × List Name) :=
  links.foldl (fun m l => adjAdd m l.source l.target) []

/-- The reverse adjacency map of a link list. -/
def buildRevAdj (links : List Link) : List (Name × List Name) :=
  links.foldl (fun m l => adjAdd m l.target l.source) []

/-- The total number of adjacency entries: an upper bound on how many
queue entries the breadth-first loop can ever push. -/
def adjSize (adj : List (Name × List Name)) : Nat :=
  (adj.map (fun p => p.2.length)).sum

/-- The breadth-first loop shared by the ancestor and descendant searches
(`while (queue.length > 0) ...`): pop, skip when at the depth cap (50) or
already visited, otherwise visit and push unvisited neighbours one level
deeper. The `fuel` argument makes the recursion structural; `none`
(fuel exhausted) never occurs for the fuel `detectCyclesIterative`
supplies (`bfsLoop_total`). -/
def bfsLoop (adj : List (Name × List Name)) :
    Nat → List (Name × Nat) → List Name → Option (List Name)
  | _, [], visited => some visited
  | 0, _ :: _, _ => none
  | fuel + 1, (n, d) :: rest, visited =>
    if 50 ≤ d ∨ n ∈ visited then bfsLoop adj fuel rest visited
    else
      let visited' := setIns visited n
      let pushes := ((mapGet adj n).getD []).filter (fun p => p ∉ visited')
      bfsLoop adj fuel (rest ++ pushes.map (fun p => (p, d + 1))) visited'

/-- The depth-bounded node set reachable from `start` in `adj`. -/
def bfsReach (adj : List (Name × List Name)) (start : Name) : List Name :=
  (bfsLoop adj (adjSize adj + 2) [(start, 0)] []).getD []

/-- The `problematicLinks` keys one node's iteration adds: `node->anc`
for every `anc` (other than `node` itself) lying in both the depth-bounded
ancestor and descendant sets of `node`. -/
def nodeMarks (adjList reverseAdjList : List (Name × List Name)) (node : Name) : List Name :=
  let ancestors := bfsReach reverseAdjList node
  let descendants := bfsReach adjList node
  (ancestors.filter (fun anc => anc ∈ descendants ∧ anc ≠ node)).map
    (fun anc => node ++ str "->" ++ anc)

/-- `detectCyclesIterative`: for every node with outgoing edges, flag the
key `node->ancestor` for every node that is both a (depth-bounded)
ancestor and descendant. The JS code accumulates the keys into a `Set`
consumed only through `has`; the flags are returned here as the
concatenation of each node's marks, which has exactly the same members. -/
def detectCyclesIterative (links : List Link) : List Name :=
  let adjList := buildAdj links
  let reverseAdjList := buildRevAdj links
  (adjList.map (fun p => p.1)).flatMap (nodeMarks adjList reverseAdjList)

/-- The filter applied to the candidate links (lines 232–235). -/
def gedcomCleanLinks (links : List Link) : List Link :=
  let problematic := detectCyclesIterative links
  links.filter (fun l => (l.source ++ str "->" ++ l.target) ∉ problematic)

/-- `parseGEDCOM`: candidates, the bulk cycle pass, and the empty-graph
check. -/
def parseGEDCOM (text : Name) : Option (List Name × List Link) :=
  (gedcomCandidates text).bind (fun r =>
    if r.1 = [] then none
    else some (r.1, gedcomCleanLinks r.2))

/-- Modelled from the spec: the commit step of the GEDCOM import pipeline
is absent from `src/` (the `Import` component's `onImport` prop has no
caller among the source files). §4.3/§4.5 of the specification resolve
single-parent collisions in a bulk import by "keeping the first accepted
parent-edge per child and dropping the rest". -/
def commitImportLinks (links : List Link) : List Link :=
  links.foldl (fun acc l =>
    if acc.any (fun k => k.target == l.target) then acc else acc ++ [l]) []

/-- A `k`-step walk from `x` to `y` following the adjacency map. -/
def AdjPath (adj : List (Name × List Name)) : Nat → Name → Name → Prop
  | 0, x, y => x = y
  | k + 1, x, y => ∃ z ∈ (mapGet adj x).getD [], AdjPath adj k z y

/-- A `k`-step walk from `a` to `b` following the links themselves. -/
def EdgePath (links : List Link) : Nat → Name → Name → Prop
  | 0, a, b => a = b
  | k + 1, a, b => ∃ l ∈ links, l.source = a ∧ EdgePath links k l.target b

/-- `bfsLoop` instrumented to also record the depth at which each node
was visited (used only in proofs; `bfsLoopD_fst` projects it back to
`bfsLoop`). -/
def bfsLoopD (adj : List (Name × List Name)) :
    Nat → List (Name × Nat) → List (Name × Nat) → Option (List (Name × Nat))
  | _, [], visited => some visited
  | 0, _ :: _, _ => none
  | fuel + 1, (n, d) :: rest, visited =>
    if 50 ≤ d ∨ n ∈ visited.map Prod.fst then bfsLoopD adj fuel rest visited
    else
      let visited' := (n, d) :: visited
      let pushes := ((mapGet adj n).getD []).filter (fun p => p ∉ visited'.map Prod.fst)
      bfsLoopD adj fuel (rest ++ pushes.map (fun p => (p, d + 1))) visited'

/-- The number of adjacency entries of yet-unvisited keys: an upper bound
on the pushes the breadth-first loop can still perform. -/
def bfsBudget (adj : List (Name × List Name)) (visited : List Name) : Nat :=
  ((adj.filter (fun p => p.1 ∉ visited)).map (fun p => p.2.length)).sum

/-- Proof-internal invariant of the breadth-first queue: its depths form
at most two consecutive levels, lower level first. -/
def QTwoLevel (q : List (Name × Nat)) : Prop :=
  ∃ q1 q2 d0, q = q1 ++ q2 ∧ (∀ e ∈ q1, e.2 = d0) ∧ (∀ e ∈ q2, e.2 = d0 + 1)

/-- Proof-internal invariant: every recorded visit depth is at most every
queued depth. -/
def DBound (q vD : List (Name × Nat)) : Prop :=
  ∀ e ∈ vD, ∀ e' ∈ q, e.2 ≤ e'.2

/-- Proof-internal invariant: every visited node is within the depth cap,
and (below the cap) each of its neighbours is visited or queued at most
one level deeper. -/
def AInv (adj : List (Name × List Name)) (q vD : List (Name × Nat)) : Prop :=
  ∀ e ∈ vD, e.2 ≤ 49 ∧ (e.2 ≤ 48 → ∀ p ∈ (mapGet adj e.1).getD [],
    (∃ dp, (p, dp) ∈ vD ∧ dp ≤ e.2 + 1) ∨ (∃ d', (p, d') ∈ q ∧ d' ≤ e.2 + 1))

/-- A GEDCOM file with one family unit listing two parent roles (husband
and wife) for the same child. -/
def twoParentGed : Name :=
  str "0 @I1@ INDI\n1 NAME John /Doe/\n0 @I2@ INDI\n1 NAME Jane /Doe/\n0 @I3@ INDI\n1 NAME Kid /Doe/\n0 @F1@ FAM\n1 HUSB @I1@\n1 WIFE @I2@\n1 CHIL @I3@\n0 TRLR"

/-- Two individuals named "2" and "1", inserted in that order. -/
def numDemo : AppState := ⟨[str "2", str "1"], []⟩

/-- Individuals A, B, C, D with edges A→B and C→D: two disjoint chains. -/
def multiRootDemo : AppState :=
  ⟨[str "A", str "B", str "C", str "D"],
   [⟨str "A", str "B"⟩, ⟨str "C", str "D"⟩]⟩

/-- The `i`-th name on a 51-node cycle (`N` followed by the decimal
digits of `i mod 51`). -/
def pname (i : Nat) : Name := 'N' :: Nat.toDigits 10 (i % 51)

/-- A simple directed cycle of length 51: `pname i -> pname (i+1)` for
`i = 0, ..., 50`, closing back to `pname 0`. -/
def deepCycleLinks : List Link :=
  (List.range 51).map (fun i => ⟨pname i, pname (i + 1)⟩)

/-! # Theorems -/

/-- Build a path of length `n + 1` from one explicit edge and a path for
the remainder. -/
theorem pathBool_cons {links : List Link} {a b : Name} {n : Nat} (l : Link)
    (hl : l ∈ links) (ha : l.source = a) (hp : pathBool links n l.target b = true) :
    pathBool links (n + 1) a b = true := by
  simp only [pathBool, List.any_eq_true]
  exact ⟨l, hl, by simp [ha, hp]⟩

/-- The empty path. -/
theorem pathBool_self {links : List Link} {a : Name} :
    pathBool links 0 a a = true := by
  simp [pathBool]

/-! ## Claims about the manual mutations -/

/-- C10: a rename whose trimmed new name is non-empty and differs from the
current name only in letter case is a silent no-op: the state is returned
unchanged and no error is produced, so a capitalization-only rename is
impossible. -/
theorem rename_case_variant_is_silent_noop (s : AppState) (oldName newName : Name)
    (_hmem : oldName ∈ s.nodes)
    (hne : jsTrim newName ≠ [])
    (hci : jsToLower (jsTrim newName) = jsToLower oldName)
    (_hdiff : jsTrim newName ≠ oldName) :
    handleNodeNameChange s oldName newName = (s, none) := by
  unfold handleNodeNameChange
  simp [hne, hci]

/-- Witness for `rename_case_variant_is_silent_noop`: renaming "Bob" to
"bob" in a one-member graph changes nothing and reports no error. -/
theorem rename_case_variant_is_silent_noop_witness :
    handleNodeNameChange ⟨[str "Bob"], []⟩ (str "Bob") (str "bob") = (⟨[str "Bob"], []⟩, none) :=
  rename_case_variant_is_silent_noop ⟨[str "Bob"], []⟩ (str "Bob") (str "bob")
    (by decide) (by decide) (by decide) (by decide)

/-- Case analysis of `handleManualAdd`: every branch either produces no
error or returns the input state untouched. -/
theorem handleManualAdd_cases (s : AppState) (sel : Option Name)
    (name : Name) (rt : Option RelType) :
    (handleManualAdd s sel name rt).2 = none ∨ (handleManualAdd s sel name rt).1 = s := by
  unfold handleManualAdd
  repeat' split
  all_goals (dsimp only; split_ifs <;> simp)

/-- Case analysis of `handleNodeNameChange`: every branch either produces
no error or returns the input state untouched. -/
theorem handleNodeNameChange_cases (s : AppState) (oldName newName : Name) :
    (handleNodeNameChange s oldName newName).2 = none ∨
    (handleNodeNameChange s oldName newName).1 = s := by
  unfold handleNodeNameChange
  dsimp only
  split_ifs <;> simp

/-- C9: every rejected manual mutation (manual add or rename that surfaces
an error message) leaves the node set and the edge set exactly as they
were before the attempt. -/
theorem rejected_mutation_leaves_state_unchanged (s : AppState) (sel : Option Name)
    (name : Name) (rt : Option RelType) (oldName newName : Name) :
    (∀ e, (handleManualAdd s sel name rt).2 = some e →
      (handleManualAdd s sel name rt).1 = s) ∧
    (∀ e, (handleNodeNameChange s oldName newName).2 = some e →
      (handleNodeNameChange s oldName newName).1 = s) := by
  constructor
  · intro e h
    rcases handleManualAdd_cases s sel name rt with h' | h'
    · rw [h'] at h; exact absurd h (by simp)
    · exact h'
  · intro e h
    rcases handleNodeNameChange_cases s oldName newName with h' | h'
    · rw [h'] at h; exact absurd h (by simp)
    · exact h'

/-- Witness for `rejected_mutation_leaves_state_unchanged`: adding a member
with a whitespace-only name is rejected and the empty state is unchanged. -/
theorem rejected_mutation_leaves_state_unchanged_witness :
    (handleManualAdd ⟨[], []⟩ none (str " ") none).1 = ⟨[], []⟩ :=
  (rejected_mutation_leaves_state_unchanged ⟨[], []⟩ none (str " ") none [] []).1
    (str "Member name is required.") (by decide)

/-- C2 counterexample: in the graph with edges A→B and B→C, the manual
relationship-add of A as a child of the selected node C is *accepted*
(no error of any kind), the edge C→A is appended, and the resulting edge
set contains the directed cycle A→B→C→A. The claim that this attempt
fails with a cycle-kind error and leaves the graph unchanged is false. -/
theorem addEdge_closing_cycle_is_accepted_demo :
    (handleManualAdd cycleDemoPre (some (str "C")) (str "A") (some .child)).2 = none ∧
    (handleManualAdd cycleDemoPre (some (str "C")) (str "A") (some .child)).1.links
      = cycleDemoPre.links ++ [⟨str "C", str "A"⟩] ∧
    pathBool (handleManualAdd cycleDemoPre (some (str "C")) (str "A") (some .child)).1.links
      3 (str "A") (str "A") = true := by decide

/-- C2 amended: `handleManualAdd` performs no cycle check. In every graph
containing edges A→B and B→C, if no existing edge points (case-insensitively)
at A, the name A is trim-stable and non-empty, and C and A are
(case-insensitively) different names, then adding A as a child of the
selected node C *succeeds*: no error is produced, the edge C→A is appended,
and the resulting edge set contains the directed cycle A→B→C→A. -/
theorem addEdge_closing_cycle_is_accepted (s : AppState) (A B C : Name)
    (hAB : (⟨A, B⟩ : Link) ∈ s.links) (hBC : (⟨B, C⟩ : Link) ∈ s.links)
    (htrim : jsTrim A = A) (hne : A ≠ [])
    (hCA : jsToLower C ≠ jsToLower A)
    (hnoparent : ∀ l ∈ s.links, jsToLower l.target ≠ jsToLower A) :
    (handleManualAdd s (some C) A (some .child)).2 = none ∧
    (handleManualAdd s (some C) A (some .child)).1.links = s.links ++ [⟨C, A⟩] ∧
    pathBool (handleManualAdd s (some C) A (some .child)).1.links 3 A A = true := by
  have hfst : ¬ s.links.any (fun l => jsToLower l.target == jsToLower A) = true := by
    simp only [List.any_eq_true, beq_iff_eq, not_exists]
    intro l
    intro ⟨hl, hp⟩
    exact hnoparent l hl hp
  have hsnd : ¬ s.links.any (fun l =>
      jsToLower l.source == jsToLower C && jsToLower l.target == jsToLower A) = true := by
    simp only [List.any_eq_true, Bool.and_eq_true, beq_iff_eq, not_exists]
    intro l
    intro ⟨hl, _, h2⟩
    exact hnoparent l hl h2
  have hlinks : (handleManualAdd s (some C) A (some .child)).1.links = s.links ++ [⟨C, A⟩] ∧
      (handleManualAdd s (some C) A (some .child)).2 = none := by
    unfold handleManualAdd
    simp only [htrim, hne, if_neg, beq_iff_eq, hCA]
    simp [hfst, hsnd, hne, hCA]
  refine ⟨hlinks.2, hlinks.1, ?_⟩
  rw [hlinks.1]
  have memAB : (⟨A, B⟩ : Link) ∈ s.links ++ [(⟨C, A⟩ : Link)] := List.mem_append_left _ hAB
  have memBC : (⟨B, C⟩ : Link) ∈ s.links ++ [(⟨C, A⟩ : Link)] := List.mem_append_left _ hBC
  have memCA : (⟨C, A⟩ : Link) ∈ s.links ++ [(⟨C, A⟩ : Link)] :=
    List.mem_append_right _ (List.mem_singleton.mpr rfl)
  exact pathBool_cons ⟨A, B⟩ memAB rfl
    (pathBool_cons ⟨B, C⟩ memBC rfl
      (pathBool_cons ⟨C, A⟩ memCA rfl pathBool_self))

/-- Witness for `addEdge_closing_cycle_is_accepted` at the concrete
three-member chain graph. -/
theorem addEdge_closing_cycle_is_accepted_witness :
    (handleManualAdd cycleDemoPre (some (str "C")) (str "A") (some .child)).2 = none ∧
    (handleManualAdd cycleDemoPre (some (str "C")) (str "A") (some .child)).1.links
      = cycleDemoPre.links ++ [⟨str "C", str "A"⟩] ∧
    pathBool (handleManualAdd cycleDemoPre (some (str "C")) (str "A") (some .child)).1.links
      3 (str "A") (str "A") = true :=
  addEdge_closing_cycle_is_accepted cycleDemoPre (str "A") (str "B") (str "C")
    (by decide) (by decide) (by decide) (by decide) (by decide) (by decide)

/-- C6: renaming "Bob" to "Robert" (when "Robert" does not collide
case-insensitively with any individual) succeeds, replaces "Bob" by
"Robert" in the individual list, rewrites every edge endpoint equal to
"Bob" to "Robert", and leaves no node and no edge endpoint named "Bob". -/
theorem rename_rewrites_all_occurrences (s : AppState)
    (hbob : str "Bob" ∈ s.nodes)
    (hnocoll : ∀ n ∈ s.nodes, jsToLower n ≠ jsToLower (str "Robert")) :
    (handleNodeNameChange s (str "Bob") (str "Robert")).2 = none ∧
    (handleNodeNameChange s (str "Bob") (str "Robert")).1.nodes
      = s.nodes.map (fun n => if n = str "Bob" then str "Robert" else n) ∧
    (handleNodeNameChange s (str "Bob") (str "Robert")).1.links
      = s.links.map (fun l =>
          ⟨if l.source = str "Bob" then str "Robert" else l.source,
           if l.target = str "Bob" then str "Robert" else l.target⟩) ∧
    str "Robert" ∈ (handleNodeNameChange s (str "Bob") (str "Robert")).1.nodes ∧
    str "Bob" ∉ (handleNodeNameChange s (str "Bob") (str "Robert")).1.nodes ∧
    ∀ l ∈ (handleNodeNameChange s (str "Bob") (str "Robert")).1.links,
      l.source ≠ str "Bob" ∧ l.target ≠ str "Bob" := by
  have hcoll : ¬ s.nodes.any (fun n => jsToLower n == jsToLower (str "Robert")) = true := by
    simp only [List.any_eq_true, beq_iff_eq, not_exists]
    intro n
    intro ⟨hn, hp⟩
    exact hnocoll n hn hp
  have hr : handleNodeNameChange s (str "Bob") (str "Robert")
      = ({ nodes := s.nodes.map (fun n => if n = str "Bob" then str "Robert" else n),
           links := s.links.map (fun l =>
             ⟨if l.source = str "Bob" then str "Robert" else l.source,
              if l.target = str "Bob" then str "Robert" else l.target⟩) }, none) := by
    unfold handleNodeNameChange
    simp only [show jsTrim (str "Robert") = str "Robert" from rfl]
    rw [if_neg (by decide), if_neg (by decide), if_neg hcoll]
    simp [beq_iff_eq]
  rw [hr]
  refine ⟨rfl, rfl, rfl, ?_, ?_, ?_⟩
  · exact List.mem_map.mpr ⟨str "Bob", hbob, by simp⟩
  · intro hmem
    obtain ⟨n, _, hn⟩ := List.mem_map.mp hmem
    by_cases h : n = str "Bob"
    · rw [if_pos h] at hn
      exact absurd hn (by decide)
    · rw [if_neg h] at hn
      exact h hn
  · intro l hl
    obtain ⟨l₀, _, hmap⟩ := List.mem_map.mp hl
    subst hmap
    constructor
    · show (if l₀.source = str "Bob" then str "Robert" else l₀.source) ≠ str "Bob"
      by_cases h : l₀.source = str "Bob"
      · rw [if_pos h]; decide
      · rw [if_neg h]; exact h
    · show (if l₀.target = str "Bob" then str "Robert" else l₀.target) ≠ str "Bob"
      by_cases h : l₀.target = str "Bob"
      · rw [if_pos h]; decide
      · rw [if_neg h]; exact h

/-- Witness for `rename_rewrites_all_occurrences` on a two-member graph with
one edge out of "Bob". -/
theorem rename_rewrites_all_occurrences_witness :
    (handleNodeNameChange ⟨[str "Bob", str "Ann"], [⟨str "Bob", str "Ann"⟩]⟩
        (str "Bob") (str "Robert")).1
      = ⟨[str "Robert", str "Ann"], [⟨str "Robert", str "Ann"⟩]⟩ := by
  have h := rename_rewrites_all_occurrences
    ⟨[str "Bob", str "Ann"], [⟨str "Bob", str "Ann"⟩]⟩
    (by decide) (by decide)
  have h2 := h.2.1
  have h3 := h.2.2.1
  have heta : (handleNodeNameChange ⟨[str "Bob", str "Ann"], [⟨str "Bob", str "Ann"⟩]⟩
      (str "Bob") (str "Robert")).1
      = AppState.mk (handleNodeNameChange ⟨[str "Bob", str "Ann"], [⟨str "Bob", str "Ann"⟩]⟩
          (str "Bob") (str "Robert")).1.nodes
        (handleNodeNameChange ⟨[str "Bob", str "Ann"], [⟨str "Bob", str "Ann"⟩]⟩
          (str "Bob") (str "Robert")).1.links := rfl
  rw [heta, h2, h3]
  decide

/-- `jsIndexOf` returns `-1` exactly on missing elements. -/
theorem jsIndexOf_of_not_mem {l : List Name} {x : Name} (h : x ∉ l) :
    jsIndexOf l x = -1 := by
  induction l with
  | nil => rfl
  | cons y ys ih =>
    have hyx : ¬ y = x := fun hyx => h (hyx ▸ List.mem_cons_self y ys)
    rw [jsIndexOf, if_neg hyx, ih (fun hm => h (List.mem_cons_of_mem y hm))]
    decide

/-- C8: a tabular import whose (kept, parsed) header row has no `child`
field fails with a malformed-input error whose message names the missing
`child` column, and no graph state is produced (the result is an error,
not a node/link list). -/
theorem csv_import_missing_child_column_fails (text : Name)
    (hrows : 2 ≤ (appCsvRows text).length)
    (hnochild : str "child" ∉ importCsvHeader text) :
    ∃ msg, importParseCSV text = .error msg ∧ str "child" <:+: msg := by
  unfold importParseCSV
  dsimp only
  rw [if_neg (by omega)]
  have hchild : jsIndexOf (importCsvHeader text) (str "child") = -1 :=
    jsIndexOf_of_not_mem hnochild
  rw [if_pos (Or.inr hchild)]
  refine ⟨_, rfl, ?_⟩
  exact List.IsInfix.trans (by decide)
    (List.IsSuffix.isInfix (List.suffix_append _ _))

/-- Witness for `csv_import_missing_child_column_fails`: the header
`Parent,Name` with one data row is rejected with a message naming
`child`. -/
theorem csv_import_missing_child_column_fails_witness :
    ∃ msg, importParseCSV (str "Parent,Name\nAlice,Bob") = .error msg ∧
      str "child" <:+: msg :=
  csv_import_missing_child_column_fails (str "Parent,Name\nAlice,Bob")
    (by decide) (by decide)

/-- Membership in `setAdd`. -/
theorem mem_setAdd {l : List Name} {x y : Name} :
    y ∈ setAdd l x ↔ y ∈ l ∨ y = x := by
  unfold setAdd
  split_ifs with h
  · constructor
    · exact Or.inl
    · rintro (hy | rfl)
      · exact hy
      · exact h
  · simp [List.mem_append]

/-- Membership in a `setAdd` fold. -/
theorem mem_foldl_setAdd {l acc : List Name} {x : Name} :
    x ∈ l.foldl setAdd acc ↔ x ∈ acc ∨ x ∈ l := by
  induction l generalizing acc with
  | nil => simp
  | cons y ys ih => simp [List.foldl_cons, ih, mem_setAdd, List.mem_cons, or_assoc]

/-- `dedupFirst` preserves membership. -/
theorem mem_dedupFirst {l : List Name} {x : Name} :
    x ∈ dedupFirst l ↔ x ∈ l := by
  unfold dedupFirst
  simp [mem_foldl_setAdd]

/-- Strengthen a pairwise relation using membership of both elements. -/
theorem pairwise_imp_mem {α : Type _} {R S : α → α → Prop} {l : List α}
    (h : ∀ a ∈ l, ∀ b ∈ l, R a b → S a b) (hp : l.Pairwise R) : l.Pairwise S := by
  induction hp with
  | nil => exact List.Pairwise.nil
  | @cons a as hR _ ih =>
    refine List.Pairwise.cons (fun b hb => ?_) (ih ?_)
    · exact h a (List.mem_cons_self a as) b (List.mem_cons_of_mem a hb) (hR b hb)
    · intro x hx y hy hR'
      exact h x (List.mem_cons_of_mem a hx) y (List.mem_cons_of_mem a hy) hR'

/-- Committing the checked edge `p→c` preserves invariants 1, 2 and 4
(the success branch of the relationship-add scenario). -/
theorem addLink_invariants (s : AppState) (p c : Name)
    (h1 : Inv1 s) (h2 : Inv2 s) (h4 : Inv4 s)
    (hpc : jsToLower p ≠ jsToLower c)
    (hnop : ¬ (s.links.any (fun l => jsToLower l.target == jsToLower c)) = true) :
    Inv1 ⟨setAdd (setAdd (dedupFirst s.nodes) p) c, s.links ++ [⟨p, c⟩]⟩ ∧
    Inv2 ⟨setAdd (setAdd (dedupFirst s.nodes) p) c, s.links ++ [⟨p, c⟩]⟩ ∧
    Inv4 ⟨setAdd (setAdd (dedupFirst s.nodes) p) c, s.links ++ [⟨p, c⟩]⟩ := by
  refine ⟨?_, ?_, ?_⟩
  · intro l hl
    rcases List.mem_append.mp hl with hl | hl
    · obtain ⟨hs, ht⟩ := h1 l hl
      exact ⟨mem_setAdd.mpr (Or.inl (mem_setAdd.mpr (Or.inl (mem_dedupFirst.mpr hs)))),
        mem_setAdd.mpr (Or.inl (mem_setAdd.mpr (Or.inl (mem_dedupFirst.mpr ht))))⟩
    · rcases List.mem_singleton.mp hl with rfl
      exact ⟨mem_setAdd.mpr (Or.inl (mem_setAdd.mpr (Or.inr rfl))),
        mem_setAdd.mpr (Or.inr rfl)⟩
  · refine List.pairwise_append.mpr ⟨h2, List.pairwise_singleton _ _, ?_⟩
    intro l hl l' hl'
    rcases List.mem_singleton.mp hl' with rfl
    intro heq
    exact hnop (List.any_eq_true.mpr ⟨l, hl, by simp [heq]⟩)
  · intro l hl
    rcases List.mem_append.mp hl with hl | hl
    · exact h4 l hl
    · rcases List.mem_singleton.mp hl with rfl
      intro heq
      exact hpc (congrArg jsToLower heq)

/-- `handleManualAdd` preserves invariants 1, 2 and 4. -/
theorem handleManualAdd_preserves_invariants (s : AppState) (sel : Option Name)
    (name : Name) (rt : Option RelType)
    (h1 : Inv1 s) (h2 : Inv2 s) (h4 : Inv4 s) :
    Inv1 (handleManualAdd s sel name rt).1 ∧ Inv2 (handleManualAdd s sel name rt).1 ∧
      Inv4 (handleManualAdd s sel name rt).1 := by
  rcases sel with _ | sel₀
  · unfold handleManualAdd
    dsimp only
    split_ifs with ht hdup
    · exact ⟨h1, h2, h4⟩
    · exact ⟨h1, h2, h4⟩
    · refine ⟨?_, h2, h4⟩
      intro l hl
      obtain ⟨hs, htg⟩ := h1 l hl
      exact ⟨List.mem_append_left _ hs, List.mem_append_left _ htg⟩
  · rcases rt with _ | rty
    · unfold handleManualAdd
      dsimp only
      split_ifs <;> exact ⟨h1, h2, h4⟩
    · rcases rty with _ | _
      · -- relationshipType = parent: the new member becomes the parent
        unfold handleManualAdd
        dsimp only
        split_ifs with ht hsame hparent hdup
        · exact ⟨h1, h2, h4⟩
        · exact ⟨h1, h2, h4⟩
        · exact ⟨h1, h2, h4⟩
        · exact ⟨h1, h2, h4⟩
        · exact addLink_invariants s (jsTrim name) sel₀ h1 h2 h4
            (fun heq => hsame (by simp [heq])) hparent
      · -- relationshipType = child: the new member becomes the child
        unfold handleManualAdd
        dsimp only
        split_ifs with ht hsame hparent hdup
        · exact ⟨h1, h2, h4⟩
        · exact ⟨h1, h2, h4⟩
        · exact ⟨h1, h2, h4⟩
        · exact ⟨h1, h2, h4⟩
        · exact addLink_invariants s sel₀ (jsTrim name) h1 h2 h4
            (fun heq => hsame (by simp [heq])) hparent

/-- `handleNodeNameChange` preserves invariants 1, 2 and 4. -/
theorem handleNodeNameChange_preserves_invariants (s : AppState) (oldName newName : Name)
    (h1 : Inv1 s) (h2 : Inv2 s) (h4 : Inv4 s) :
    Inv1 (handleNodeNameChange s oldName newName).1 ∧
    Inv2 (handleNodeNameChange s oldName newName).1 ∧
    Inv4 (handleNodeNameChange s oldName newName).1 := by
  unfold handleNodeNameChange
  dsimp only
  split_ifs with hempty hsame hcoll
  · exact ⟨h1, h2, h4⟩
  · exact ⟨h1, h2, h4⟩
  · exact ⟨h1, h2, h4⟩
  · have hfact : ∀ n ∈ s.nodes, n ≠ jsTrim newName := by
      intro n hn heq
      refine hcoll (List.any_eq_true.mpr ⟨n, hn, ?_⟩)
      simp [heq]
    have hinj : ∀ x ∈ s.nodes, ∀ y ∈ s.nodes,
        (if x == oldName then jsTrim newName else x)
          = (if y == oldName then jsTrim newName else y) → x = y := by
      intro x hx y hy hxy
      by_cases hxo : x == oldName <;> by_cases hyo : y == oldName <;>
        simp [hxo, hyo] at hxy ⊢
      · rw [beq_iff_eq] at hxo hyo
        rw [hxo, hyo]
      · rw [beq_iff_eq] at hxo
        exact absurd hxy.symm (hfact y hy)
      · rw [beq_iff_eq] at hyo
        exact absurd hxy (hfact x hx)
      · exact hxy
    refine ⟨?_, ?_, ?_⟩
    · intro l hl
      obtain ⟨l₀, hl₀, rfl⟩ := List.mem_map.mp hl
      obtain ⟨hs, ht⟩ := h1 l₀ hl₀
      exact ⟨List.mem_map.mpr ⟨l₀.source, hs, rfl⟩, List.mem_map.mpr ⟨l₀.target, ht, rfl⟩⟩
    · refine List.pairwise_map.mpr ?_
      refine pairwise_imp_mem (fun a ha b hb hR => ?_) h2
      dsimp only
      intro heq
      exact hR (hinj a.target (h1 a ha).2 b.target (h1 b hb).2 heq)
    · intro l hl
      obtain ⟨l₀, hl₀, rfl⟩ := List.mem_map.mp hl
      dsimp only
      intro heq
      exact h4 l₀ hl₀ (hinj l₀.source (h1 l₀ hl₀).1 l₀.target (h1 l₀ hl₀).2 heq)

/-- C1 counterexample: the CSV import `parent,child\nA,A` is accepted (it
commits a graph with no error), yet the committed graph contains the
self-edge A→A, violating invariant 4 (and invariant 3): the claim that
every accepted mutation preserves invariants 1–5 is false. -/
theorem csv_import_violates_invariants_demo :
    appCsvImport (str "parent,child\nA,A")
      = .ok ⟨[str "A"], [⟨str "A", str "A"⟩]⟩ ∧
    ¬ Inv4 ⟨[str "A"], [⟨str "A", str "A"⟩]⟩ ∧
    ¬ Inv3 ⟨[str "A"], [⟨str "A", str "A"⟩]⟩ := by
  refine ⟨rfl, by decide, fun h => ?_⟩
  have h0 := h 0 (str "A")
  rw [show pathBool [⟨str "A", str "A"⟩] 1 (str "A") (str "A") = true from by decide] at h0
  exact absurd h0 (by decide)

/-- C1 amended: after every sequence of manual mutations (member add,
relationship add, rename) starting from a graph satisfying invariants 1, 2
and 4, invariants 1, 2 and 4 (edge endpoints exist, single parent per
child, no self-edge) still hold. Invariants 3 and 5 are not preserved by
the manual relationship-add, and the CSV/GEDCOM imports enforce none of
invariants 2–5 (see the counterexample). -/
theorem manual_mutations_preserve_invariants (ops : List ManualOp) (s : AppState)
    (h1 : Inv1 s) (h2 : Inv2 s) (h4 : Inv4 s) :
    Inv1 (applyManualSeq s ops) ∧ Inv2 (applyManualSeq s ops) ∧
      Inv4 (applyManualSeq s ops) := by
  induction ops generalizing s with
  | nil => exact ⟨h1, h2, h4⟩
  | cons op ops ih =>
    have hstep : Inv1 (applyManual s op) ∧ Inv2 (applyManual s op) ∧
        Inv4 (applyManual s op) := by
      cases op with
      | add sel name rt => exact handleManualAdd_preserves_invariants s sel name rt h1 h2 h4
      | rename o n => exact handleNodeNameChange_preserves_invariants s o n h1 h2 h4
    exact ih (applyManual s op) hstep.1 hstep.2.1 hstep.2.2

/-- Witness for `manual_mutations_preserve_invariants`: a member add, a
child add and a rename applied to the empty graph keep invariants 1, 2
and 4. -/
theorem manual_mutations_preserve_invariants_witness :
    Inv1 (applyManualSeq ⟨[], []⟩
        [.add none (str "A") none,
         .add (some (str "A")) (str "B") (some .child),
         .rename (str "A") (str "Alice")]) ∧
    Inv2 (applyManualSeq ⟨[], []⟩
        [.add none (str "A") none,
         .add (some (str "A")) (str "B") (some .child),
         .rename (str "A") (str "Alice")]) ∧
    Inv4 (applyManualSeq ⟨[], []⟩
        [.add none (str "A") none,
         .add (some (str "A")) (str "B") (some .child),
         .rename (str "A") (str "Alice")]) :=
  manual_mutations_preserve_invariants
    [.add none (str "A") none,
     .add (some (str "A")) (str "B") (some .child),
     .rename (str "A") (str "Alice")]
    ⟨[], []⟩ (by decide) (by decide) (by decide)

/-- `splitOnCharRec` never returns the empty list. -/
theorem splitOnCharRec_ne_nil {c : Char} {s : Name} : splitOnCharRec c s ≠ [] := by
  induction s with
  | nil => simp [splitOnCharRec]
  | cons x xs ih =>
    rw [splitOnCharRec]
    rcases h : splitOnCharRec c xs with _ | ⟨r, rs⟩
    · exact absurd h ih
    · split_ifs <;> simp

/-- The accumulator worker against the reference split. -/
theorem splitOnCharGo_spec {c : Char} {s : Name} :
    ∀ cur acc r rs, splitOnCharRec c s = r :: rs →
      splitOnCharGo c s cur acc = acc.reverse ++ (cur.reverse ++ r) :: rs := by
  induction s with
  | nil =>
    intro cur acc r rs h
    rw [splitOnCharRec] at h
    cases h
    simp [splitOnCharGo]
  | cons x xs ih =>
    intro cur acc r rs h
    rcases hxs : splitOnCharRec c xs with _ | ⟨r', rs'⟩
    · exact absurd hxs splitOnCharRec_ne_nil
    rw [splitOnCharRec, hxs] at h
    dsimp only at h
    by_cases hx : x = c
    · rw [if_pos hx] at h
      cases h
      rw [splitOnCharGo, if_pos hx, ih [] (cur.reverse :: acc) r' rs' hxs]
      simp
    · rw [if_neg hx] at h
      cases h
      rw [splitOnCharGo, if_neg hx, ih (x :: cur) acc r' _ hxs]
      simp

/-- The two split definitions agree. -/
theorem splitOnChar_eq_rec (c : Char) (s : Name) :
    splitOnChar c s = splitOnCharRec c s := by
  rcases h : splitOnCharRec c s with _ | ⟨r, rs⟩
  · exact absurd h splitOnCharRec_ne_nil
  · rw [splitOnChar, splitOnCharGo_spec [] [] r rs h]
    simp

/-- `splitOnChar` never returns the empty list. -/
theorem splitOnChar_ne_nil {c : Char} {s : Name} : splitOnChar c s ≠ [] := by
  rw [splitOnChar_eq_rec]
  exact splitOnCharRec_ne_nil

/-- Splitting a list in which the separator does not occur. -/
theorem splitOnChar_not_mem {c : Char} {a : Name} (h : c ∉ a) :
    splitOnChar c a = [a] := by
  rw [splitOnChar_eq_rec]
  induction a with
  | nil => rfl
  | cons x xs ih =>
    rw [splitOnCharRec, ih (fun hm => h (List.mem_cons_of_mem x hm))]
    dsimp only
    rw [if_neg (fun hx => h (List.mem_cons.mpr (Or.inl hx.symm)))]

/-- Splitting around the first separator occurrence. -/
theorem splitOnChar_append {c : Char} {a b : Name} (h : c ∉ a) :
    splitOnChar c (a ++ c :: b) = a :: splitOnChar c b := by
  rw [splitOnChar_eq_rec, splitOnChar_eq_rec]
  induction a with
  | nil =>
    rw [List.nil_append, splitOnCharRec]
    rcases hsb : splitOnCharRec c b with _ | ⟨r, rs⟩
    · exact absurd hsb splitOnCharRec_ne_nil
    · simp [hsb]
  | cons x xs ih =>
    rw [List.cons_append, splitOnCharRec, ih (fun hm => h (List.mem_cons_of_mem x hm))]
    dsimp only
    rw [if_neg (fun hx => h (List.mem_cons.mpr (Or.inl hx.symm)))]

/-- Splitting is a left inverse of joining on the separator, for non-empty
lists of separator-free pieces. -/
theorem splitOnChar_joinWith {c : Char} {ls : List Name} (hne : ls ≠ [])
    (h : ∀ l ∈ ls, c ∉ l) :
    splitOnChar c (joinWith [c] ls) = ls := by
  induction ls with
  | nil => exact absurd rfl hne
  | cons x xs ih =>
    rcases xs with _ | ⟨y, ys⟩
    · exact splitOnChar_not_mem (h x (List.mem_cons_self x []))
    · rw [joinWith, List.append_assoc, List.singleton_append,
        splitOnChar_append (h x (List.mem_cons_self x (y :: ys))),
        ih (by simp) (fun l hl => h l (List.mem_cons_of_mem x hl))]

/-- A quote-bracketed list is stable under trimming. -/
theorem jsTrim_quoted (m : Name) :
    jsTrim ('"' :: (m ++ ['"'])) = '"' :: (m ++ ['"']) := by
  unfold jsTrim
  rw [show List.dropWhile isWs ('"' :: (m ++ ['"'])) = '"' :: (m ++ ['"']) from by
    rw [List.dropWhile_cons]
    simp [isWs]]
  rw [show ('"' :: (m ++ ['"'] : Name)).reverse = '"' :: (m.reverse ++ ['"']) from by
    simp]
  rw [List.dropWhile_cons]
  simp [isWs]

/-- Removing a character that does not occur is the identity. -/
theorem removeAll_not_mem {c : Char} {m : Name} (h : c ∉ m) : removeAll c m = m := by
  unfold removeAll
  refine List.filter_eq_self.mpr (fun a ha => ?_)
  simp only [ne_eq, decide_eq_true_eq]
  exact fun heq => h (heq ▸ ha)

/-- Unquoting a quote-bracketed quote-free list. -/
theorem removeAll_quoted {m : Name} (h : '"' ∉ m) :
    removeAll '"' ('"' :: (m ++ ['"'])) = m := by
  unfold removeAll
  rw [List.filter_cons, List.filter_append]
  simp only [ne_eq, decide_not]
  norm_num
  intro a ha heq
  exact h (heq ▸ ha)

/-- The exported CSV line, decomposed at its separating comma. -/
theorem csvLine_decomp (l : Link) :
    csvLine l = ('"' :: (l.source ++ ['"'])) ++ ',' :: ('"' :: (l.target ++ ['"'])) := by
  show str "\"" ++ l.source ++ str "\",\"" ++ l.target ++ str "\""
      = ('"' :: (l.source ++ ['"'])) ++ ',' :: ('"' :: (l.target ++ ['"']))
  rw [show str "\"" = ['"'] from rfl, show str "\",\"" = ['"', ',', '"'] from rfl]
  simp

/-- Both fields of an exported CSV line parse back to the original
endpoints. -/
theorem csvLine_fields {l : Link} (hs : CleanName l.source) (ht : CleanName l.target) :
    (splitOnChar ',' (csvLine l)).map (fun h => removeAll '"' (jsTrim h))
      = [l.source, l.target] := by
  obtain ⟨-, -, hsc, hsq, -⟩ := hs
  obtain ⟨-, -, htc, htq, -⟩ := ht
  rw [csvLine_decomp,
    splitOnChar_append (by
      intro hm
      rcases List.mem_cons.mp hm with h | h
      · exact absurd h.symm (by decide)
      · rcases List.mem_append.mp h with h | h
        · exact hsc h
        · rcases List.mem_singleton.mp h with h
          exact absurd h (by decide)),
    splitOnChar_not_mem (by
      intro hm
      rcases List.mem_cons.mp hm with h | h
      · exact absurd h.symm (by decide)
      · rcases List.mem_append.mp h with h | h
        · exact htc h
        · rcases List.mem_singleton.mp h with h
          exact absurd h (by decide))]
  rw [List.map_cons, List.map_cons, List.map_nil,
    jsTrim_quoted, jsTrim_quoted, removeAll_quoted hsq, removeAll_quoted htq]

/-- The exported CSV line as one quote-bracketed block. -/
theorem csvLine_decomp2 (l : Link) :
    csvLine l = '"' :: ((l.source ++ '"' :: ',' :: '"' :: l.target) ++ ['"']) := by
  rw [csvLine_decomp]
  simp

/-- Characters of an exported CSV line. -/
theorem mem_csvLine {c : Char} {l : Link} (h : c ∈ csvLine l) :
    c = '"' ∨ c = ',' ∨ c ∈ l.source ∨ c ∈ l.target := by
  rw [csvLine_decomp] at h
  rcases List.mem_append.mp h with h | h
  · rcases List.mem_cons.mp h with h | h
    · exact Or.inl h
    · rcases List.mem_append.mp h with h | h
      · exact Or.inr (Or.inr (Or.inl h))
      · exact Or.inl (List.mem_singleton.mp h)
  · rcases List.mem_cons.mp h with h | h
    · exact Or.inr (Or.inl h)
    · rcases List.mem_cons.mp h with h | h
      · exact Or.inl h
      · rcases List.mem_append.mp h with h | h
        · exact Or.inr (Or.inr (Or.inr h))
        · exact Or.inl (List.mem_singleton.mp h)

/-- One re-import loop step recovers the exported link and its
endpoints. -/
theorem csvRowStep_line (acc : List Link × List Name) (l : Link)
    (hs : CleanName l.source) (ht : CleanName l.target) :
    csvRowStep 0 1 acc (csvLine l)
      = (acc.1 ++ [l], setAdd (setAdd acc.2 l.source) l.target) := by
  unfold csvRowStep
  dsimp only
  rw [csvLine_fields hs ht]
  rw [if_pos ⟨hs.1, ht.1⟩]
  rfl

/-- The re-import loop over all exported lines recovers the exported link
list and collects exactly the endpoints. -/
theorem csv_fold_lines (links : List Link) (acc : List Link × List Name)
    (hclean : ∀ l ∈ links, CleanName l.source ∧ CleanName l.target) :
    (links.map csvLine).foldl (csvRowStep 0 1) acc
      = (acc.1 ++ links,
         links.foldl (fun ns l => setAdd (setAdd ns l.source) l.target) acc.2) := by
  induction links generalizing acc with
  | nil => simp
  | cons l ls ih =>
    rw [List.map_cons, List.foldl_cons,
      csvRowStep_line acc l (hclean l (List.mem_cons_self l ls)).1
        (hclean l (List.mem_cons_self l ls)).2,
      ih _ (fun x hx => hclean x (List.mem_cons_of_mem l hx)), List.foldl_cons]
    simp

/-- Membership in the endpoint-collecting fold. -/
theorem mem_nodeFold {links : List Link} {acc : List Name} {x : Name} :
    x ∈ links.foldl (fun ns l => setAdd (setAdd ns l.source) l.target) acc ↔
      x ∈ acc ∨ ∃ l ∈ links, x = l.source ∨ x = l.target := by
  induction links generalizing acc with
  | nil => simp
  | cons l ls ih =>
    rw [List.foldl_cons, ih]
    simp only [mem_setAdd, List.mem_cons]
    constructor
    · rintro (((h | h) | h) | ⟨l', hl', h⟩)
      · exact Or.inl h
      · exact Or.inr ⟨l, Or.inl rfl, Or.inl h⟩
      · exact Or.inr ⟨l, Or.inl rfl, Or.inr h⟩
      · exact Or.inr ⟨l', Or.inr hl', h⟩
    · rintro (h | ⟨l', (rfl | hl'), h⟩)
      · exact Or.inl (Or.inl (Or.inl h))
      · rcases h with h | h
        · exact Or.inl (Or.inl (Or.inr h))
        · exact Or.inl (Or.inr h)
      · exact Or.inr ⟨l', hl', h⟩

/-- Splitting the exported text on newlines yields the header row followed
by one line per link. -/
theorem splitOnChar_exportCSV (links : List Link) (hne : links ≠ [])
    (hclean : ∀ l ∈ links, CleanName l.source ∧ CleanName l.target) :
    splitOnChar '\n' (exportCSV links) = str "parent,child" :: links.map csvLine := by
  have hnl_line : ∀ r ∈ links.map csvLine, '\n' ∉ r := by
    intro r hr hm
    obtain ⟨l, hl, rfl⟩ := List.mem_map.mp hr
    obtain ⟨⟨-, hsnl, -, -, -⟩, ⟨-, htnl, -, -, -⟩⟩ := hclean l hl
    rcases mem_csvLine hm with h | h | h | h
    · exact absurd h (by decide)
    · exact absurd h (by decide)
    · exact hsnl h
    · exact htnl h
  unfold exportCSV
  rw [show str "parent,child\n" = str "parent,child" ++ ['\n'] from rfl,
    List.append_assoc,
    show (['\n'] ++ joinWith (str "\n") (links.map csvLine) : Name)
      = '\n' :: joinWith (str "\n") (links.map csvLine) from rfl,
    splitOnChar_append (by decide),
    show str "\n" = ['\n'] from rfl,
    splitOnChar_joinWith (fun h => hne (List.map_eq_nil_iff.mp h)) hnl_line]

/-- C5 amended: for a graph with at least one edge, in which every
individual is an endpoint of some edge (no isolated individuals), every
edge endpoint is an individual, and every name survives the CSV format
(non-empty, no newline/comma/double-quote, trim-stable), exporting to CSV
and re-importing recovers exactly the original edge list and exactly the
original individual set. Isolated individuals and names using the format's
delimiter characters are not preserved (see the counterexample). -/
theorem csv_roundtrip_recovers_graph (s : AppState)
    (hne : s.links ≠ [])
    (hinv1 : Inv1 s)
    (hclean : ∀ n ∈ s.nodes, CleanName n)
    (hcover : ∀ n ∈ s.nodes, ∃ l ∈ s.links, n = l.source ∨ n = l.target) :
    ∃ t, appCsvImport (exportCSV s.links) = .ok t ∧
      t.links = s.links ∧ (∀ x, x ∈ t.nodes ↔ x ∈ s.nodes) := by
  have hcleanl : ∀ l ∈ s.links, CleanName l.source ∧ CleanName l.target := by
    intro l hl
    exact ⟨hclean _ (hinv1 l hl).1, hclean _ (hinv1 l hl).2⟩
  have hlinesne : s.links.map csvLine ≠ [] :=
    fun h => hne (List.map_eq_nil_iff.mp h)
  have hrows : appCsvRows (exportCSV s.links)
      = str "parent,child" :: s.links.map csvLine := by
    unfold appCsvRows
    rw [splitOnChar_exportCSV s.links hne hcleanl]
    refine List.filter_eq_self.mpr ?_
    intro a ha
    rcases List.mem_cons.mp ha with rfl | ha
    · decide
    · obtain ⟨l, hl, rfl⟩ := List.mem_map.mp ha
      rw [csvLine_decomp2 l, jsTrim_quoted]
      simp
  unfold appCsvImport
  rw [if_neg (fun h => by
    unfold exportCSV at h
    exact absurd (List.append_eq_nil.mp h).1 (by decide))]
  dsimp only
  rw [hrows]
  rw [if_neg (by
    have := List.length_pos.mpr hlinesne
    simp only [List.length_cons]
    omega)]
  rw [show (str "parent,child" :: s.links.map csvLine).headD [] = str "parent,child"
    from rfl]
  rw [show ((splitOnChar ',' (jsToLower (jsTrim (str "parent,child")))).map (removeAll '"'))
      = [str "parent", str "child"] from by decide]
  rw [show jsIndexOf [str "parent", str "child"] (str "parent") = 0 from by decide,
    show jsIndexOf [str "parent", str "child"] (str "child") = 1 from by decide]
  rw [if_neg (by decide)]
  rw [show (str "parent,child" :: s.links.map csvLine).drop 1 = s.links.map csvLine
    from rfl]
  rw [csv_fold_lines s.links ([], []) hcleanl]
  refine ⟨_, rfl, by simp, fun x => ?_⟩
  dsimp only
  rw [mem_nodeFold]
  constructor
  · rintro (h | ⟨l, hl, h | h⟩)
    · exact absurd h (List.not_mem_nil x)
    · exact h ▸ (hinv1 l hl).1
    · exact h ▸ (hinv1 l hl).2
  · intro hx
    exact Or.inr (hcover x hx)

/-- C5 counterexample: the graph with individuals A, B, C and the single
edge A→B exports to a CSV that re-imports to a graph without the isolated
individual C, so the round-tripped individual set differs from the
original. -/
theorem csv_roundtrip_loses_isolated_demo :
    appCsvImport (exportCSV rtDemo.links)
      = .ok ⟨[str "A", str "B"], [⟨str "A", str "B"⟩]⟩ ∧
    str "C" ∈ rtDemo.nodes ∧ str "C" ∉ [str "A", str "B"] :=
  ⟨rfl, by decide, by decide⟩

/-- Witness for `csv_roundtrip_recovers_graph` on the two-member graph
with edge A→B. -/
theorem csv_roundtrip_recovers_graph_witness :
    ∃ t, appCsvImport (exportCSV (AppState.mk [str "A", str "B"] [⟨str "A", str "B"⟩]).links)
        = .ok t ∧
      t.links = (AppState.mk [str "A", str "B"] [⟨str "A", str "B"⟩]).links ∧
      (∀ x, x ∈ t.nodes ↔ x ∈ (AppState.mk [str "A", str "B"] [⟨str "A", str "B"⟩]).nodes) :=
  csv_roundtrip_recovers_graph ⟨[str "A", str "B"], [⟨str "A", str "B"⟩]⟩
    (by decide) (by decide) (by decide) (by decide)

/-- Folding `setAdd` over fresh, duplicate-free elements appends them. -/
theorem foldl_setAdd_eq_append {l acc : List Name} (hd : ∀ x ∈ l, x ∉ acc)
    (h : l.Nodup) : l.foldl setAdd acc = acc ++ l := by
  induction l generalizing acc with
  | nil => simp
  | cons x xs ih =>
    rw [List.foldl_cons,
      show setAdd acc x = acc ++ [x] from by
        unfold setAdd
        rw [if_neg (hd x (List.mem_cons_self x xs))],
      ih ?_ (List.nodup_cons.mp h).2]
    · simp
    · intro y hy hmem
      rcases List.mem_append.mp hmem with hmem | hmem
      · exact hd y (List.mem_cons_of_mem x hy) hmem
      · exact (List.nodup_cons.mp h).1 (List.mem_singleton.mp hmem ▸ hy)

/-- `dedupFirst` is the identity on duplicate-free lists. -/
theorem dedupFirst_of_nodup {l : List Name} (h : l.Nodup) : dedupFirst l = l := by
  unfold dedupFirst
  rw [foldl_setAdd_eq_append (by simp) h, List.nil_append]

/-- With no array-index keys, `Object.values` enumeration is property
creation order. -/
theorem jsKeyOrder_no_numeric {keys : List Name}
    (h : ∀ k ∈ keys, isArrayIndex k = false) : jsKeyOrder keys = keys := by
  unfold jsKeyOrder
  rw [List.filter_eq_nil_iff.mpr (fun k hk => by simp [h k hk]),
    List.filter_eq_self.mpr (fun k hk => by simp [h k hk])]
  rfl

/-- The id of a built hierarchical node is the name it was built from. -/
@[simp] theorem buildNode_id (s : AppState) (fuel : Nat) (n : Name) :
    (buildNode s fuel n).id = n := by
  cases fuel <;> rfl

/-- C7 counterexample: for individuals inserted in the order "2", "1"
(both roots), the synthesized "Family" node lists its children as
"1", "2" — ascending numeric key order, not first-seen insertion order,
because JS objects enumerate array-index keys first in numeric order. -/
theorem multi_root_children_numeric_order_demo :
    (hierarchicalData numDemo).map (fun h => (h.id, h.children.map HNode.id))
      = some (str "Family", [str "1", str "2"]) ∧
    numDemo.nodes = [str "2", str "1"] ∧
    ([str "1", str "2"] : List Name) ≠ [str "2", str "1"] :=
  ⟨rfl, rfl, by decide⟩

/-- C7 amended: for duplicate-free individual lists none of whose names is
a JS array index (e.g. ordinary non-numeric names), the Hierarchy Builder
returns, when two or more roots exist, a synthesized "Family" node whose
children are exactly the computed roots in first-seen (insertion) order,
and, when exactly one root exists, that root's tree directly with no
synthetic wrapper. For purely numeric names the multi-root children
instead follow JS integer-key enumeration (ascending numeric order). -/
theorem hierarchy_multi_root_family (s : AppState)
    (hnodup : s.nodes.Nodup)
    (hnonum : ∀ n ∈ s.nodes, isArrayIndex n = false) :
    (2 ≤ (s.nodes.filter (fun n => n ∉ childrenIds s)).length →
      ∃ h, hierarchicalData s = some h ∧ h.id = str "Family" ∧
        h.children.map HNode.id = s.nodes.filter (fun n => n ∉ childrenIds s)) ∧
    (∀ r, s.nodes.filter (fun n => n ∉ childrenIds s) = [r] →
      hierarchicalData s = some (buildNode s s.nodes.length r)) := by
  have hkeys : nodeMapKeys s = s.nodes := dedupFirst_of_nodup hnodup
  have horder : jsKeyOrder (nodeMapKeys s) = s.nodes := by
    rw [hkeys]
    exact jsKeyOrder_no_numeric hnonum
  have hroots : rootIds s = s.nodes.filter (fun n => n ∉ childrenIds s) := by
    unfold rootIds
    rw [horder]
  constructor
  · intro hlen
    rcases hr : s.nodes.filter (fun n => n ∉ childrenIds s) with _ | ⟨r₁, rs⟩
    · rw [hr] at hlen
      simp at hlen
    rcases rs with _ | ⟨r₂, rest⟩
    · rw [hr] at hlen
      simp at hlen
    have hnne : ¬ s.nodes.length = 0 := by
      intro h0
      rw [List.eq_nil_of_length_eq_zero h0] at hr
      simp at hr
    unfold hierarchicalData
    rw [if_neg hnne, hroots, hr]
    refine ⟨_, rfl, rfl, ?_⟩
    rw [List.map_map]
    have hmapid : ∀ (l : List Name), l.map (HNode.id ∘ buildNode s s.nodes.length) = l := by
      intro l
      induction l with
      | nil => rfl
      | cons x xs ih => simp [ih, Function.comp]
    exact hmapid _
  · intro r hr
    have hnne : ¬ s.nodes.length = 0 := by
      intro h0
      rw [List.eq_nil_of_length_eq_zero h0] at hr
      simp at hr
    unfold hierarchicalData
    rw [if_neg hnne, hroots, hr]

/-- Witness for `hierarchy_multi_root_family`: the two disjoint chains
A→B and C→D yield the "Family" wrapper with children A, C in insertion
order. -/
theorem hierarchy_multi_root_family_witness :
    ∃ h, hierarchicalData multiRootDemo = some h ∧ h.id = str "Family" ∧
      h.children.map HNode.id
        = multiRootDemo.nodes.filter (fun n => n ∉ childrenIds multiRootDemo) :=
  (hierarchy_multi_root_family multiRootDemo (by decide) (by decide)).1 (by decide)

/-- Elements of a `commitImportLinks` fold state persist. -/
theorem commit_fold_mem_mono {ls acc : List Link} {x : Link} (h : x ∈ acc) :
    x ∈ ls.foldl (fun acc l =>
      if acc.any (fun k => k.target == l.target) then acc else acc ++ [l]) acc := by
  induction ls generalizing acc with
  | nil => exact h
  | cons l ls ih =>
    rw [List.foldl_cons]
    split_ifs with hc
    · exact ih h
    · exact ih (List.mem_append_left _ h)

/-- A target covered by the fold state stays covered. -/
theorem commit_fold_any_mono {ls acc : List Link} {t : Name}
    (h : acc.any (fun k => k.target == t) = true) :
    (ls.foldl (fun acc l =>
      if acc.any (fun k => k.target == l.target) then acc else acc ++ [l])
      acc).any (fun k => k.target == t) = true := by
  obtain ⟨k, hk, hkt⟩ := List.any_eq_true.mp h
  exact List.any_eq_true.mpr ⟨k, commit_fold_mem_mono hk, hkt⟩

/-- The fold keeps the targets of its state pairwise distinct. -/
theorem commit_fold_pairwise {ls acc : List Link}
    (h : acc.Pairwise (fun l₁ l₂ => l₁.target ≠ l₂.target)) :
    (ls.foldl (fun acc l =>
      if acc.any (fun k => k.target == l.target) then acc else acc ++ [l])
      acc).Pairwise (fun l₁ l₂ => l₁.target ≠ l₂.target) := by
  induction ls generalizing acc with
  | nil => exact h
  | cons l ls ih =>
    rw [List.foldl_cons]
    split_ifs with hc
    · exact ih h
    · refine ih (List.pairwise_append.mpr ⟨h, List.pairwise_singleton _ _, ?_⟩)
      intro a ha b hb heq
      rcases List.mem_singleton.mp hb
      exact hc (List.any_eq_true.mpr ⟨a, ha, by simp [heq]⟩)

/-- The fold result is a sublist of its state followed by the input. -/
theorem commit_fold_sublist {ls : List Link} : ∀ {acc : List Link},
    (ls.foldl (fun acc l =>
      if acc.any (fun k => k.target == l.target) then acc else acc ++ [l])
      acc).Sublist (acc ++ ls) := by
  induction ls with
  | nil => intro acc; simp
  | cons l ls ih =>
    intro acc
    rw [List.foldl_cons]
    split_ifs with hc
    · exact ih.trans ((List.sublist_cons_self l ls).append_left acc)
    · have h := @ih (acc ++ [l])
      rw [List.append_assoc] at h
      exact h

/-- Every target of the input is covered by the fold result. -/
theorem commit_fold_covers {ls : List Link} : ∀ {acc : List Link}, ∀ l ∈ ls,
    (ls.foldl (fun acc l =>
      if acc.any (fun k => k.target == l.target) then acc else acc ++ [l])
      acc).any (fun k => k.target == l.target) = true := by
  induction ls with
  | nil => intro acc l hl; exact absurd hl (List.not_mem_nil l)
  | cons x xs ih =>
    intro acc l hl
    rw [List.foldl_cons]
    rcases List.mem_cons.mp hl with rfl | hl
    · split_ifs with hc
      · exact commit_fold_any_mono hc
      · exact commit_fold_any_mono (List.any_eq_true.mpr
          ⟨l, List.mem_append_right _ (List.mem_singleton.mpr rfl), by simp⟩)
    · exact ih l hl

/-- A link whose target is new relative to everything before it is kept. -/
theorem commit_fold_keeps_first {pre suf : List Link} {l : Link} : ∀ {acc : List Link},
    (∀ p ∈ acc, p.target ≠ l.target) → (∀ p ∈ pre, p.target ≠ l.target) →
    l ∈ (pre ++ l :: suf).foldl (fun acc k =>
      if acc.any (fun j => j.target == k.target) then acc else acc ++ [k]) acc := by
  induction pre with
  | nil =>
    intro acc hacc _
    rw [List.nil_append, List.foldl_cons,
      if_neg (fun hc => by
        obtain ⟨k, hk, hkt⟩ := List.any_eq_true.mp hc
        exact hacc k hk (by simpa using hkt))]
    exact commit_fold_mem_mono (List.mem_append_right _ (List.mem_singleton.mpr rfl))
  | cons p pre ih =>
    intro acc hacc hpre
    rw [List.cons_append, List.foldl_cons]
    split_ifs with hc
    · exact ih hacc (fun q hq => hpre q (List.mem_cons_of_mem p hq))
    · refine ih ?_ (fun q hq => hpre q (List.mem_cons_of_mem p hq))
      intro q hq
      rcases List.mem_append.mp hq with hq | hq
      · exact hacc q hq
      · rcases List.mem_singleton.mp hq
        exact hpre p (List.mem_cons_self p pre)

/-- C4 (GEDCOM two-parent collision handling; the commit step is modelled
from the spec, see `commitImportLinks`): for every successfully imported
GEDCOM input, committing the parsed links keeps, for each child, exactly
the first parsed parent edge: the committed edges are a sublist of the
parsed ones, no child has more than one incoming committed edge, every
parsed child keeps one incoming edge, and the edge kept for a child is
the first parsed edge pointing at it. -/
theorem gedcom_commit_first_parent_per_child (text : Name) (ns : List Name)
    (ls : List Link) (_hp : parseGEDCOM text = some (ns, ls)) :
    (commitImportLinks ls).Sublist ls ∧
    (commitImportLinks ls).Pairwise (fun l₁ l₂ => l₁.target ≠ l₂.target) ∧
    (∀ l ∈ ls, (commitImportLinks ls).any (fun k => k.target == l.target) = true) ∧
    (∀ pre l suf, ls = pre ++ l :: suf → (∀ p ∈ pre, p.target ≠ l.target) →
      l ∈ commitImportLinks ls) := by
  clear _hp
  refine ⟨?_, ?_, ?_, ?_⟩
  · have h := @commit_fold_sublist ls ([] : List Link)
    rw [List.nil_append] at h
    exact h
  · exact commit_fold_pairwise List.Pairwise.nil
  · exact fun l hl => commit_fold_covers l hl
  · intro pre l suf hls hpre
    rw [hls]
    exact commit_fold_keeps_first (fun p hp => absurd hp (List.not_mem_nil p)) hpre

/-- Witness for `gedcom_commit_first_parent_per_child`: a family with a
husband, a wife and one child parses to two candidate parent edges into
the child, and the commit keeps only the first (the husband's). -/
theorem gedcom_commit_first_parent_per_child_witness :
    (commitImportLinks [⟨str "John Doe", str "Kid Doe"⟩, ⟨str "Jane Doe", str "Kid Doe"⟩]).Sublist
      [⟨str "John Doe", str "Kid Doe"⟩, ⟨str "Jane Doe", str "Kid Doe"⟩] ∧
    (commitImportLinks [⟨str "John Doe", str "Kid Doe"⟩, ⟨str "Jane Doe", str "Kid Doe"⟩]).Pairwise
      (fun l₁ l₂ => l₁.target ≠ l₂.target) ∧
    (∀ l ∈ ([⟨str "John Doe", str "Kid Doe"⟩, ⟨str "Jane Doe", str "Kid Doe"⟩] : List Link),
      (commitImportLinks [⟨str "John Doe", str "Kid Doe"⟩, ⟨str "Jane Doe", str "Kid Doe"⟩]).any
        (fun k => k.target == l.target) = true) ∧
    (∀ pre l suf,
      ([⟨str "John Doe", str "Kid Doe"⟩, ⟨str "Jane Doe", str "Kid Doe"⟩] : List Link)
        = pre ++ l :: suf →
      (∀ p ∈ pre, p.target ≠ l.target) →
      l ∈ commitImportLinks [⟨str "John Doe", str "Kid Doe"⟩, ⟨str "Jane Doe", str "Kid Doe"⟩]) :=
  gedcom_commit_first_parent_per_child twoParentGed
    [str "John Doe", str "Jane Doe", str "Kid Doe"]
    [⟨str "John Doe", str "Kid Doe"⟩, ⟨str "Jane Doe", str "Kid Doe"⟩] rfl

/-! ### Adjacency-map lemmas -/

/-- Lookup at a matching head entry. -/
theorem mapGet_cons_pos {β : Type} {k1 : Name} {v1 : β} {ps : List (Name × β)}
    {k : Name} (h : (k1 == k) = true) : mapGet ((k1, v1) :: ps) k = some v1 := by
  have hf : List.find? (fun p => p.1 == k) ((k1, v1) :: ps) = some (k1, v1) :=
    List.find?_cons_of_pos _ h
  unfold mapGet
  rw [hf]
  rfl

/-- Lookup skips a non-matching head entry. -/
theorem mapGet_cons_neg {β : Type} {k1 : Name} {v1 : β} {ps : List (Name × β)}
    {k : Name} (h : ¬ (k1 == k) = true) : mapGet ((k1, v1) :: ps) k = mapGet ps k := by
  have hf : List.find? (fun p => p.1 == k) ((k1, v1) :: ps)
      = List.find? (fun p => p.1 == k) ps := List.find?_cons_of_neg _ h
  unfold mapGet
  rw [hf]

/-- Looking up a key that some entry carries succeeds. -/
theorem mapGet_of_any {β : Type} {m : List (Name × β)} {k : Name}
    (h : m.any (fun p => p.1 == k) = true) : ∃ vs, mapGet m k = some vs := by
  induction m with
  | nil => simp at h
  | cons p ps ih =>
    obtain ⟨pk, pv⟩ := p
    by_cases hp : (pk == k) = true
    · exact ⟨pv, mapGet_cons_pos hp⟩
    · rw [mapGet_cons_neg hp]
      simp only [List.any_cons, hp, Bool.false_or] at h
      exact ih h

/-- Looking up a key no entry carries fails. -/
theorem mapGet_of_not_any {β : Type} {m : List (Name × β)} {k : Name}
    (h : ¬ m.any (fun p => p.1 == k) = true) : mapGet m k = none := by
  induction m with
  | nil => rfl
  | cons p ps ih =>
    obtain ⟨pk, pv⟩ := p
    simp only [List.any_cons, Bool.or_eq_true, not_or] at h
    rw [mapGet_cons_neg h.1]
    exact ih h.2

/-- Updating every entry of key `k` commutes with looking `k` up. -/
theorem mapGet_mapUpdate_self {m : List (Name × List Name)} {k v : Name} :
    mapGet (m.map (fun p => if p.1 == k then (p.1, p.2 ++ [v]) else p)) k
      = (mapGet m k).map (fun vs => vs ++ [v]) := by
  induction m with
  | nil => rfl
  | cons p ps ih =>
    obtain ⟨pk, pv⟩ := p
    by_cases hp : (pk == k) = true
    · rw [List.map_cons, if_pos hp]
      rw [show ((pk, pv) : Name × List Name).1 = pk from rfl,
        show ((pk, pv) : Name × List Name).2 = pv from rfl]
      rw [mapGet_cons_pos hp, mapGet_cons_pos hp]
      rfl
    · rw [List.map_cons, if_neg hp]
      rw [mapGet_cons_neg hp, mapGet_cons_neg hp]
      exact ih

/-- Updating entries of key `k` leaves other lookups unchanged. -/
theorem mapGet_mapUpdate_other {m : List (Name × List Name)} {k v k' : Name}
    (h : k' ≠ k) :
    mapGet (m.map (fun p => if p.1 == k then (p.1, p.2 ++ [v]) else p)) k'
      = mapGet m k' := by
  induction m with
  | nil => rfl
  | cons p ps ih =>
    obtain ⟨pk, pv⟩ := p
    by_cases hp : (pk == k) = true
    · have hpk : ¬ (pk == k') = true := by
        rw [beq_iff_eq] at hp ⊢
        rw [hp]
        exact fun he => h he.symm
      rw [List.map_cons, if_pos hp]
      rw [show ((pk, pv) : Name × List Name).1 = pk from rfl,
        show ((pk, pv) : Name × List Name).2 = pv from rfl]
      rw [mapGet_cons_neg hpk, mapGet_cons_neg hpk]
      exact ih
    · by_cases hpk : (pk == k') = true
      · rw [List.map_cons, if_neg hp, mapGet_cons_pos hpk, mapGet_cons_pos hpk]
      · rw [List.map_cons, if_neg hp, mapGet_cons_neg hpk, mapGet_cons_neg hpk]
        exact ih

/-- Appending a fresh single entry: looking up its key finds it. -/
theorem mapGet_append_single_self {β : Type} {m : List (Name × β)} {k : Name} {v : β}
    (h : mapGet m k = none) : mapGet (m ++ [(k, v)]) k = some v := by
  induction m with
  | nil => exact mapGet_cons_pos (by simp)
  | cons p ps ih =>
    obtain ⟨pk, pv⟩ := p
    by_cases hp : (pk == k) = true
    · rw [mapGet_cons_pos hp] at h
      cases h
    · rw [mapGet_cons_neg hp] at h
      rw [List.cons_append, mapGet_cons_neg hp]
      exact ih h

/-- Appending a single entry leaves other lookups unchanged. -/
theorem mapGet_append_single_other {β : Type} {m : List (Name × β)} {k k' : Name} {v : β}
    (h : k' ≠ k) : mapGet (m ++ [(k, v)]) k' = mapGet m k' := by
  induction m with
  | nil =>
    rw [List.nil_append, mapGet_cons_neg (by
      rw [beq_iff_eq]
      exact fun he => h he.symm)]
  | cons p ps ih =>
    obtain ⟨pk, pv⟩ := p
    by_cases hp : (pk == k') = true
    · rw [List.cons_append, mapGet_cons_pos hp, mapGet_cons_pos hp]
    · rw [List.cons_append, mapGet_cons_neg hp, mapGet_cons_neg hp]
      exact ih

/-- `adjAdd` appends to the stored list of its key. -/
theorem mapGet_adjAdd_self {m : List (Name × List Name)} {k v : Name} :
    mapGet (adjAdd m k v) k = some ((mapGet m k).getD [] ++ [v]) := by
  unfold adjAdd
  split_ifs with h
  · obtain ⟨vs, hvs⟩ := mapGet_of_any h
    rw [mapGet_mapUpdate_self, hvs]
    rfl
  · rw [mapGet_append_single_self (mapGet_of_not_any h), mapGet_of_not_any h]
    rfl

/-- `adjAdd` leaves other keys unchanged. -/
theorem mapGet_adjAdd_other {m : List (Name × List Name)} {k v k' : Name}
    (h : k' ≠ k) : mapGet (adjAdd m k v) k' = mapGet m k' := by
  unfold adjAdd
  split_ifs with hany
  · exact mapGet_mapUpdate_other h
  · exact mapGet_append_single_other h

/-- The adjacency fold, characterized: the neighbours of `u` are the
`g`-projections of the links whose `f`-projection is `u`, in order. -/
theorem mapGet_adjFold (f g : Link → Name) (links : List Link) :
    ∀ (m : List (Name × List Name)) (u : Name),
      (mapGet (links.foldl (fun m l => adjAdd m (f l) (g l)) m) u).getD []
        = (mapGet m u).getD [] ++ (links.filter (fun l => f l == u)).map g := by
  induction links with
  | nil => intro m u; simp
  | cons l ls ih =>
    intro m u
    rw [List.foldl_cons, ih]
    by_cases hu : f l == u
    · rw [beq_iff_eq] at hu
      rw [hu, mapGet_adjAdd_self]
      simp only [List.filter_cons, show (f l == u) = true from by simp [hu]]
      simp
    · rw [mapGet_adjAdd_other (fun he => hu (by simp [he.symm]))]
      simp only [List.filter_cons, hu]
      simp [Bool.not_eq_true] at hu
      simp [hu]

/-- A link's target is among the `buildAdj` neighbours of its source. -/
theorem mem_buildAdj_neighbors {links : List Link} {l : Link} (h : l ∈ links) :
    l.target ∈ (mapGet (buildAdj links) l.source).getD [] := by
  unfold buildAdj
  rw [mapGet_adjFold (fun l => l.source) (fun l => l.target) links [] l.source]
  refine List.mem_append_right _ (List.mem_map.mpr ⟨l, List.mem_filter.mpr ⟨h, by simp⟩, rfl⟩)

/-- A link's source is among the `buildRevAdj` neighbours of its target. -/
theorem mem_buildRevAdj_neighbors {links : List Link} {l : Link} (h : l ∈ links) :
    l.source ∈ (mapGet (buildRevAdj links) l.target).getD [] := by
  unfold buildRevAdj
  rw [mapGet_adjFold (fun l => l.target) (fun l => l.source) links [] l.target]
  refine List.mem_append_right _ (List.mem_map.mpr ⟨l, List.mem_filter.mpr ⟨h, by simp⟩, rfl⟩)

/-- The update function of `adjAdd` preserves keys. -/
theorem adjAdd_update_keys {m : List (Name × List Name)} {k v : Name} :
    m.map (Prod.fst ∘ fun p => if p.1 == k then (p.1, p.2 ++ [v]) else p)
      = m.map Prod.fst := by
  refine List.map_congr_left (fun p _ => ?_)
  by_cases hpk : (p.1 == k) = true
  · simp [Function.comp, hpk]
  · simp [Function.comp, hpk]

/-- The keys of `adjAdd`. -/
theorem mem_adjAdd_keys {m : List (Name × List Name)} {k v x : Name} :
    x ∈ (adjAdd m k v).map Prod.fst ↔ x ∈ m.map Prod.fst ∨ x = k := by
  unfold adjAdd
  split_ifs with h
  · rw [List.map_map, adjAdd_update_keys]
    constructor
    · exact Or.inl
    · rintro (hx | rfl)
      · exact hx
      · obtain ⟨p, hp, hpk⟩ := List.any_eq_true.mp h
        rw [beq_iff_eq] at hpk
        exact List.mem_map.mpr ⟨p, hp, hpk⟩
  · rw [List.map_append]
    simp

/-- The keys of an adjacency fold are the key projections of its links. -/
theorem mem_adjFold_keys (f g : Link → Name) (links : List Link) :
    ∀ (m : List (Name × List Name)) (x : Name),
      x ∈ ((links.foldl (fun m l => adjAdd m (f l) (g l)) m).map Prod.fst) ↔
        x ∈ m.map Prod.fst ∨ ∃ l ∈ links, f l = x := by
  induction links with
  | nil => intro m x; simp
  | cons l ls ih =>
    intro m x
    rw [List.foldl_cons, ih]
    rw [mem_adjAdd_keys]
    constructor
    · rintro ((hx | rfl) | ⟨l', hl', rfl⟩)
      · exact Or.inl hx
      · exact Or.inr ⟨l, List.mem_cons_self l ls, rfl⟩
      · exact Or.inr ⟨l', List.mem_cons_of_mem l hl', rfl⟩
    · rintro (hx | ⟨l', hl', rfl⟩)
      · exact Or.inl (Or.inl hx)
      · rcases List.mem_cons.mp hl' with rfl | hl'
        · exact Or.inl (Or.inr rfl)
        · exact Or.inr ⟨l', hl', rfl⟩

/-- A link's source is a `buildAdj` key. -/
theorem mem_buildAdj_keys {links : List Link} {x : Name} :
    x ∈ (buildAdj links).map Prod.fst ↔ ∃ l ∈ links, l.source = x := by
  unfold buildAdj
  rw [mem_adjFold_keys (fun l => l.source) (fun l => l.target) links [] x]
  simp

/-- `adjAdd` preserves key distinctness. -/
theorem adjAdd_keys_nodup {m : List (Name × List Name)} {k v : Name}
    (h : (m.map Prod.fst).Nodup) : ((adjAdd m k v).map Prod.fst).Nodup := by
  unfold adjAdd
  split_ifs with hany
  · rw [List.map_map, adjAdd_update_keys]
    exact h
  · rw [List.map_append]
    refine List.Nodup.append h (by simp) ?_
    intro x hx hy
    rcases List.mem_singleton.mp (by simpa using hy)
    obtain ⟨p, hp, hpx⟩ := List.mem_map.mp hx
    exact hany (List.any_eq_true.mpr ⟨p, hp, by simp [hpx]⟩)

/-- The keys of an adjacency fold stay distinct. -/
theorem adjFold_keys_nodup (f g : Link → Name) (links : List Link) :
    ∀ (m : List (Name × List Name)), (m.map Prod.fst).Nodup →
      ((links.foldl (fun m l => adjAdd m (f l) (g l)) m).map Prod.fst).Nodup := by
  induction links with
  | nil => intro m h; exact h
  | cons l ls ih =>
    intro m h
    rw [List.foldl_cons]
    exact ih _ (adjAdd_keys_nodup h)

/-! ### Soundness of the breadth-first search -/

/-- `setIns` of a fresh element prepends it. -/
theorem setIns_not_mem {l : List Name} {x : Name} (h : x ∉ l) :
    setIns l x = x :: l := by
  unfold setIns
  rw [if_neg h]

/-- Everything the breadth-first loop returns was already visited or is
reachable from some queue entry within the remaining depth budget. -/
theorem bfsLoop_sound {adj : List (Name × List Name)} :
    ∀ (fuel : Nat) (queue : List (Name × Nat)) (visited : List Name)
      (res : List Name), bfsLoop adj fuel queue visited = some res →
      ∀ y ∈ res, y ∈ visited ∨
        ∃ nd ∈ queue, ∃ k, k + nd.2 ≤ 49 ∧ AdjPath adj k nd.1 y := by
  intro fuel
  induction fuel with
  | zero =>
    intro queue visited res h y hy
    cases queue with
    | nil =>
      unfold bfsLoop at h
      cases h
      exact Or.inl hy
    | cons e rest =>
      obtain ⟨n, d⟩ := e
      unfold bfsLoop at h
      cases h
  | succ f ih =>
    intro queue visited res h y hy
    cases queue with
    | nil =>
      unfold bfsLoop at h
      cases h
      exact Or.inl hy
    | cons e rest =>
      obtain ⟨n, d⟩ := e
      unfold bfsLoop at h
      dsimp only at h
      split_ifs at h with hskip
      · rcases ih rest visited res h y hy with hv | ⟨nd, hnd, k, hk, hp⟩
        · exact Or.inl hv
        · exact Or.inr ⟨nd, List.mem_cons_of_mem _ hnd, k, hk, hp⟩
      · push_neg at hskip
        obtain ⟨hd, hnv⟩ := hskip
        rw [setIns_not_mem hnv] at h
        rcases ih _ _ _ h y hy with hv | ⟨nd, hnd, k, hk, hp⟩
        · rcases List.mem_cons.mp hv with rfl | hv
          · exact Or.inr ⟨(y, d), List.mem_cons_self _ _, 0, by omega, rfl⟩
          · exact Or.inl hv
        · rcases List.mem_append.mp hnd with hnd | hnd
          · exact Or.inr ⟨nd, List.mem_cons_of_mem _ hnd, k, hk, hp⟩
          · obtain ⟨p, hpmem, rfl⟩ := List.mem_map.mp hnd
            have hpn : p ∈ (mapGet adj n).getD [] := (List.mem_filter.mp hpmem).1
            refine Or.inr ⟨(n, d), List.mem_cons_self _ _, k + 1, ?_, ⟨p, hpn, hp⟩⟩
            dsimp only at hk ⊢
            omega

/-- Everything in a depth-bounded reachability set has a path of length
at most 49 from the start. -/
theorem bfsReach_sound {adj : List (Name × List Name)} {start y : Name}
    (h : y ∈ bfsReach adj start) : ∃ k, k ≤ 49 ∧ AdjPath adj k start y := by
  unfold bfsReach at h
  rcases hl : bfsLoop adj (adjSize adj + 2) [(start, 0)] [] with _ | res
  · rw [hl] at h
    exact absurd h (List.not_mem_nil y)
  · rw [hl] at h
    simp only [Option.getD_some] at h
    rcases bfsLoop_sound _ _ _ _ hl y h with hv | ⟨nd, hnd, k, hk, hp⟩
    · exact absurd hv (List.not_mem_nil y)
    · rcases List.mem_singleton.mp hnd
      exact ⟨k, by omega, hp⟩

/-! ### Totality of the breadth-first search at the supplied fuel -/

/-- Unfolding the budget over one adjacency entry. -/
theorem bfsBudget_cons_entry {pk : Name} {pv : List Name}
    {ps : List (Name × List Name)} {v : List Name} :
    bfsBudget ((pk, pv) :: ps) v
      = (if pk ∉ v then pv.length else 0) + bfsBudget ps v := by
  unfold bfsBudget
  rw [List.filter_cons]
  by_cases h : pk ∉ v
  · rw [if_pos (by simpa using h), if_pos h]
    simp
  · rw [if_neg (by simpa using h), if_neg h]
    simp

/-- Visiting a fresh node frees at least its degree from the push
budget. -/
theorem bfsBudget_visit {adj : List (Name × List Name)} {visited : List Name}
    {n : Name} (hn : n ∉ visited) :
    bfsBudget adj (n :: visited) + ((mapGet adj n).getD []).length
      ≤ bfsBudget adj visited := by
  induction adj with
  | nil => simp [bfsBudget, mapGet]
  | cons p ps ih =>
    obtain ⟨pk, pv⟩ := p
    rw [bfsBudget_cons_entry, bfsBudget_cons_entry]
    by_cases hpk : pk = n
    · subst hpk
      rw [mapGet_cons_pos (by simp)]
      rw [if_neg (fun hc => hc (List.mem_cons_self pk visited)), if_pos hn]
      have hmono : bfsBudget ps (pk :: visited) ≤ bfsBudget ps visited :=
        Nat.le_trans (Nat.le_add_right _ _) ih
      simp only [Option.getD_some]
      omega
    · rw [mapGet_cons_neg (by simp [hpk])]
      by_cases hv : pk ∉ visited
      · rw [if_pos (by simp [hpk, hv]), if_pos hv]
        omega
      · rw [if_neg (by simp at hv; simp [List.mem_cons, hv]), if_neg hv]
        omega

/-- With fuel exceeding the queue length plus the push budget, the loop
returns a result. -/
theorem bfsLoop_total {adj : List (Name × List Name)} :
    ∀ (fuel : Nat) (queue : List (Name × Nat)) (visited : List Name),
      queue.length + bfsBudget adj visited < fuel →
      ∃ res, bfsLoop adj fuel queue visited = some res := by
  intro fuel
  induction fuel with
  | zero =>
    intro q v h
    omega
  | succ f ih =>
    intro q v h
    cases q with
    | nil => exact ⟨v, by rw [bfsLoop]⟩
    | cons e rest =>
      obtain ⟨n, d⟩ := e
      unfold bfsLoop
      split_ifs with hskip
      · refine ih rest v ?_
        rw [List.length_cons] at h
        omega
      · push_neg at hskip
        dsimp only
        rw [setIns_not_mem hskip.2]
        refine ih _ _ ?_
        have hpl : (((mapGet adj n).getD []).filter
            (fun p => p ∉ n :: v)).length ≤ ((mapGet adj n).getD []).length :=
          List.length_filter_le _ _
        have hb := @bfsBudget_visit adj v n hskip.2
        rw [List.length_append, List.length_map, List.length_cons] at *
        omega

/-- The fuel `detectCyclesIterative` supplies always suffices. -/
theorem bfsReach_total {adj : List (Name × List Name)} {start : Name} :
    ∃ res, bfsLoop adj (adjSize adj + 2) [(start, 0)] [] = some res := by
  refine bfsLoop_total _ _ _ ?_
  have hb : bfsBudget adj [] = adjSize adj := by
    unfold bfsBudget adjSize
    rw [List.filter_eq_self.mpr (fun p _ => by simp)]
  rw [hb]
  simp only [List.length_cons, List.length_nil]
  omega

/-! ### Completeness of the breadth-first search -/

/-- The instrumented loop projects onto the plain one. -/
theorem bfsLoopD_fst {adj : List (Name × List Name)} :
    ∀ (fuel : Nat) (q : List (Name × Nat)) (vD : List (Name × Nat)),
      bfsLoop adj fuel q (vD.map Prod.fst)
        = (bfsLoopD adj fuel q vD).map (fun l => l.map Prod.fst) := by
  intro fuel
  induction fuel with
  | zero =>
    intro q vD
    cases q with
    | nil => rw [bfsLoop, bfsLoopD]; rfl
    | cons e rest =>
      obtain ⟨n, d⟩ := e
      rw [bfsLoop, bfsLoopD]
      rfl
  | succ f ih =>
    intro q vD
    cases q with
    | nil => rw [bfsLoop, bfsLoopD]; rfl
    | cons e rest =>
      obtain ⟨n, d⟩ := e
      rw [bfsLoop, bfsLoopD]
      dsimp only
      split_ifs with hskip
      · exact ih rest vD
      · push_neg at hskip
        rw [setIns_not_mem hskip.2]
        have hv : (n :: vD.map Prod.fst) = ((n, d) :: vD).map Prod.fst := rfl
        rw [hv]
        exact ih _ _

/-- Visited entries persist to the final result. -/
theorem bfsLoopD_persist {adj : List (Name × List Name)} :
    ∀ (fuel : Nat) (q vD : List (Name × Nat)) (res : List (Name × Nat)),
      bfsLoopD adj fuel q vD = some res → ∀ e ∈ vD, e ∈ res := by
  intro fuel
  induction fuel with
  | zero =>
    intro q vD res h e he
    cases q with
    | nil => rw [bfsLoopD] at h; cases h; exact he
    | cons e' rest =>
      obtain ⟨n, d⟩ := e'
      rw [bfsLoopD] at h
      cases h
  | succ f ih =>
    intro q vD res h e he
    cases q with
    | nil => rw [bfsLoopD] at h; cases h; exact he
    | cons e' rest =>
      obtain ⟨n, d⟩ := e'
      rw [bfsLoopD] at h
      dsimp only at h
      split_ifs at h with hskip
      · exact ih rest vD res h e he
      · exact ih _ _ _ h e (List.mem_cons_of_mem _ he)

/-- Behind the queue front, depths are at least the front's. -/
theorem QTwoLevel_front_min {n : Name} {d : Nat} {rest : List (Name × Nat)}
    (h : QTwoLevel ((n, d) :: rest)) : ∀ e ∈ rest, d ≤ e.2 := by
  obtain ⟨q1, q2, d0, heq, h1, h2⟩ := h
  intro e he
  cases q1 with
  | nil =>
    rw [List.nil_append] at heq
    have hd : d = d0 + 1 := by
      have := h2 (n, d) (heq ▸ List.mem_cons_self _ _)
      exact this
    have he2 : e.2 = d0 + 1 := h2 e (heq ▸ List.mem_cons_of_mem _ he)
    omega
  | cons f q1' =>
    rw [List.cons_append] at heq
    cases heq
    have hd : d = d0 := h1 (n, d) (List.mem_cons_self _ _)
    rcases List.mem_append.mp he with he' | he'
    · have := h1 e (List.mem_cons_of_mem _ he')
      omega
    · have := h2 e he'
      omega

/-- The tail of a two-level queue is two-level. -/
theorem QTwoLevel_tail {n : Name} {d : Nat} {rest : List (Name × Nat)}
    (h : QTwoLevel ((n, d) :: rest)) : QTwoLevel rest := by
  obtain ⟨q1, q2, d0, heq, h1, h2⟩ := h
  cases q1 with
  | nil =>
    rw [List.nil_append] at heq
    refine ⟨rest, [], d0 + 1, by simp, ?_, by simp⟩
    intro e he
    exact h2 e (heq ▸ List.mem_cons_of_mem _ he)
  | cons f q1' =>
    rw [List.cons_append] at heq
    cases heq
    exact ⟨q1', q2, d0, rfl, fun e he => h1 e (List.mem_cons_of_mem _ he), h2⟩

/-- Popping the front and pushing one level deeper keeps the queue
two-level. -/
theorem QTwoLevel_step {n : Name} {d : Nat} {rest ps : List (Name × Nat)}
    (h : QTwoLevel ((n, d) :: rest)) (hps : ∀ e ∈ ps, e.2 = d + 1) :
    QTwoLevel (rest ++ ps) := by
  obtain ⟨q1, q2, d0, heq, h1, h2⟩ := h
  cases q1 with
  | nil =>
    rw [List.nil_append] at heq
    have hd : d = d0 + 1 := h2 (n, d) (heq ▸ List.mem_cons_self _ _)
    refine ⟨rest, ps, d0 + 1, rfl, ?_, ?_⟩
    · intro e he
      exact h2 e (heq ▸ List.mem_cons_of_mem _ he)
    · intro e he
      rw [hps e he, hd]
  | cons f q1' =>
    rw [List.cons_append] at heq
    cases heq
    have hd : d = d0 := h1 (n, d) (List.mem_cons_self _ _)
    refine ⟨q1', q2 ++ ps, d0, by rw [List.append_assoc], ?_, ?_⟩
    · exact fun e he => h1 e (List.mem_cons_of_mem _ he)
    · intro e he
      rcases List.mem_append.mp he with he' | he'
      · exact h2 e he'
      · rw [hps e he', hd]

/-- The instrumented loop preserves the three queue/visit invariants and
delivers them, with an empty queue, on its result. -/
theorem bfsLoopD_invariant {adj : List (Name × List Name)} :
    ∀ (fuel : Nat) (q vD res : List (Name × Nat)),
      bfsLoopD adj fuel q vD = some res →
      QTwoLevel q → DBound q vD → AInv adj q vD →
      AInv adj [] res := by
  intro fuel
  induction fuel with
  | zero =>
    intro q vD res h hQ hD hA
    cases q with
    | nil => rw [bfsLoopD] at h; cases h; exact hA
    | cons e rest =>
      obtain ⟨n, d⟩ := e
      rw [bfsLoopD] at h
      cases h
  | succ f ih =>
    intro q vD res h hQ hD hA
    cases q with
    | nil => rw [bfsLoopD] at h; cases h; exact hA
    | cons e rest =>
      obtain ⟨n, d⟩ := e
      rw [bfsLoopD] at h
      dsimp only at h
      split_ifs at h with hskip
      · -- depth cap reached or already visited: drop the head
        refine ih rest vD res h (QTwoLevel_tail hQ) ?_ ?_
        · intro e he e' he'
          exact hD e he e' (List.mem_cons_of_mem _ he')
        · intro e he
          obtain ⟨h49, hcov⟩ := hA e he
          refine ⟨h49, fun h48 p hp => ?_⟩
          rcases hcov h48 p hp with ⟨dp, hdp, hle⟩ | ⟨d', hd', hle⟩
          · exact Or.inl ⟨dp, hdp, hle⟩
          · rcases List.mem_cons.mp hd' with heq | hmem
            · have hpn : p = n := congrArg Prod.fst heq
              have hdd : d' = d := congrArg Prod.snd heq
              rcases hskip with h50 | hvis
              · exact absurd h50 (by omega)
              · obtain ⟨x, hx, hxf⟩ := List.mem_map.mp hvis
                obtain ⟨a, b⟩ := x
                refine Or.inl ⟨b, ?_, ?_⟩
                · have : a = n := hxf
                  rwa [hpn, ← this]
                · have := hD (a, b) hx (n, d) (List.mem_cons_self _ _)
                  dsimp only at this
                  omega
            · exact Or.inr ⟨d', hmem, hle⟩
      · -- visit the head and push its unvisited neighbours
        push_neg at hskip
        obtain ⟨hd49, hnv⟩ := hskip
        refine ih _ _ res h ?_ ?_ ?_
        · refine QTwoLevel_step hQ ?_
          intro e he
          obtain ⟨p, _, rfl⟩ := List.mem_map.mp he
          rfl
        · intro e he e' he'
          rcases List.mem_cons.mp he with rfl | he
          · dsimp only
            rcases List.mem_append.mp he' with h1 | h2
            · exact QTwoLevel_front_min hQ e' h1
            · obtain ⟨p, _, rfl⟩ := List.mem_map.mp h2
              dsimp only
              omega
          · rcases List.mem_append.mp he' with h1 | h2
            · exact hD e he e' (List.mem_cons_of_mem _ h1)
            · obtain ⟨p, _, rfl⟩ := List.mem_map.mp h2
              have := hD e he (n, d) (List.mem_cons_self _ _)
              dsimp only at this ⊢
              omega
        · intro e he
          rcases List.mem_cons.mp he with rfl | he
          · dsimp only
            refine ⟨by omega, fun h48 p hp => ?_⟩
            by_cases hpv : p ∈ ((n, d) :: vD).map Prod.fst
            · obtain ⟨x, hx, hxf⟩ := List.mem_map.mp hpv
              obtain ⟨a, b⟩ := x
              have hax : a = p := hxf
              subst hax
              rcases List.mem_cons.mp hx with heq | hxm
              · have h1 : a = n := congrArg Prod.fst heq
                have h2 : b = d := congrArg Prod.snd heq
                subst h1; subst h2
                exact Or.inl ⟨b, List.mem_cons_self _ _, by omega⟩
              · have := hD (a, b) hxm (n, d) (List.mem_cons_self _ _)
                dsimp only at this
                exact Or.inl ⟨b, List.mem_cons_of_mem _ hxm, by omega⟩
            · refine Or.inr ⟨d + 1, ?_, le_refl _⟩
              refine List.mem_append.mpr (Or.inr ?_)
              exact List.mem_map.mpr ⟨p, List.mem_filter.mpr ⟨hp, by simpa using hpv⟩, rfl⟩
          · obtain ⟨h49, hcov⟩ := hA e he
            refine ⟨h49, fun h48 p hp => ?_⟩
            rcases hcov h48 p hp with ⟨dp, hdp, hle⟩ | ⟨d', hd', hle⟩
            · exact Or.inl ⟨dp, List.mem_cons_of_mem _ hdp, hle⟩
            · rcases List.mem_cons.mp hd' with heq | hmem
              · have hpn : p = n := congrArg Prod.fst heq
                have hdd : d' = d := congrArg Prod.snd heq
                subst hpn
                exact Or.inl ⟨d, List.mem_cons_self _ _, by omega⟩
              · exact Or.inr ⟨d', List.mem_append.mpr (Or.inl hmem), hle⟩

/-- With an empty queue, the visit invariant propagates along paths: any
path of total depth at most 49 from a recorded node stays recorded. -/
theorem AInv_end_path {adj : List (Name × List Name)} {res : List (Name × Nat)}
    (hend : AInv adj [] res) :
    ∀ (k : Nat) (x : Name) (dx : Nat) (y : Name), (x, dx) ∈ res → dx + k ≤ 49 →
      AdjPath adj k x y → ∃ dy, (y, dy) ∈ res ∧ dy ≤ dx + k := by
  intro k
  induction k with
  | zero =>
    intro x dx y hmem hb hp
    have hxy : x = y := hp
    subst hxy
    exact ⟨dx, hmem, by omega⟩
  | succ j ih =>
    intro x dx y hmem hb hp
    obtain ⟨z, hz, hzp⟩ := hp
    obtain ⟨h49, hcov⟩ := hend (x, dx) hmem
    dsimp only at hcov
    rcases hcov (by omega) z hz with ⟨dz, hdz, hdzle⟩ | ⟨d', hd', _⟩
    · obtain ⟨dy, hdy, hdyle⟩ := ih z dz y hdz (by omega) hzp
      exact ⟨dy, hdy, by omega⟩
    · exact absurd hd' (List.not_mem_nil _)

/-- The very first step of the instrumented loop records the start node at
depth 0. -/
theorem bfsLoopD_start {adj : List (Name × List Name)} {start : Name} (F : Nat)
    {res : List (Name × Nat)}
    (h : bfsLoopD adj (F + 1) [(start, 0)] [] = some res) : (start, 0) ∈ res := by
  rw [bfsLoopD] at h
  dsimp only at h
  rw [if_neg (by simp)] at h
  exact bfsLoopD_persist F _ _ _ h (start, 0) (List.mem_cons_self _ _)

/-- Completeness of the depth-bounded search: every node at path distance
at most 49 from the start is found. -/
theorem bfsReach_complete {adj : List (Name × List Name)} {start y : Name}
    {k : Nat} (hk : k ≤ 49) (hp : AdjPath adj k start y) :
    y ∈ bfsReach adj start := by
  obtain ⟨res, hres⟩ := @bfsReach_total adj start
  have hproj : bfsLoop adj (adjSize adj + 2) [(start, 0)] []
      = (bfsLoopD adj (adjSize adj + 2) [(start, 0)] []).map
          (fun l => l.map Prod.fst) :=
    @bfsLoopD_fst adj (adjSize adj + 2) [(start, 0)] []
  rcases hD : bfsLoopD adj (adjSize adj + 2) [(start, 0)] [] with _ | resD
  · rw [hproj, hD] at hres
    cases hres
  · have hQ : QTwoLevel [(start, 0)] :=
      ⟨[(start, 0)], [], 0, by simp,
        fun e he => by rcases List.mem_singleton.mp he with rfl; rfl,
        fun e he => absurd he (List.not_mem_nil _)⟩
    have hDb : DBound [(start, 0)] [] := fun e he => absurd he (List.not_mem_nil _)
    have hA : AInv adj [(start, 0)] [] := fun e he => absurd he (List.not_mem_nil _)
    have hend := bfsLoopD_invariant (adjSize adj + 2) [(start, 0)] [] resD hD hQ hDb hA
    have htwo : adjSize adj + 2 = (adjSize adj + 1) + 1 := rfl
    rw [htwo] at hD
    have hstart : (start, 0) ∈ resD := bfsLoopD_start (adjSize adj + 1) hD
    obtain ⟨dy, hdy, _⟩ := AInv_end_path hend k start 0 y hstart (by omega) hp
    unfold bfsReach
    rw [hproj]
    rw [htwo, hD]
    exact List.mem_map.mpr ⟨(y, dy), hdy, rfl⟩

/-! ### Bridges between the path notions -/

/-- A successful `pathBool` test yields a link-level walk. -/
theorem pathBool_edgePath {links : List Link} :
    ∀ (k : Nat) (a b : Name), pathBool links k a b = true → EdgePath links k a b := by
  intro k
  induction k with
  | zero =>
    intro a b h
    have hab : a = b := by simpa [pathBool] using h
    exact hab
  | succ j ih =>
    intro a b h
    rw [pathBool, List.any_eq_true] at h
    obtain ⟨l, hl, hc⟩ := h
    rw [Bool.and_eq_true] at hc
    exact ⟨l, hl, by simpa using hc.1, ih _ _ hc.2⟩

/-- Walks are monotone in the link list. -/
theorem EdgePath_mono {l1 l2 : List Link} (hsub : ∀ x ∈ l1, x ∈ l2) :
    ∀ (k : Nat) (a b : Name), EdgePath l1 k a b → EdgePath l2 k a b := by
  intro k
  induction k with
  | zero => intro a b h; exact h
  | succ j ih =>
    intro a b h
    obtain ⟨l, hl, hs, hr⟩ := h
    exact ⟨l, hsub l hl, hs, ih _ _ hr⟩

/-- Extending an adjacency walk by one edge at the end. -/
theorem AdjPath_snoc {adj : List (Name × List Name)} :
    ∀ (k : Nat) (x z w : Name), AdjPath adj k x z → w ∈ (mapGet adj z).getD [] →
      AdjPath adj (k + 1) x w := by
  intro k
  induction k with
  | zero =>
    intro x z w hp hw
    have hxz : x = z := hp
    subst hxz
    exact ⟨w, hw, rfl⟩
  | succ j ih =>
    intro x z w hp hw
    obtain ⟨y, hy, hr⟩ := hp
    exact ⟨y, hy, ih _ _ _ hr hw⟩

/-- A link-level walk reverses into a walk on the reverse adjacency map. -/
theorem EdgePath_revAdjPath {links : List Link} :
    ∀ (k : Nat) (a b : Name), EdgePath links k a b → AdjPath (buildRevAdj links) k b a := by
  intro k
  induction k with
  | zero =>
    intro a b h
    have hab : a = b := h
    exact hab.symm
  | succ j ih =>
    intro a b h
    obtain ⟨l, hl, hs, hr⟩ := h
    have h1 : AdjPath (buildRevAdj links) j b l.target := ih _ _ hr
    have h2 : l.source ∈ (mapGet (buildRevAdj links) l.target).getD [] :=
      mem_buildRevAdj_neighbors hl
    have h3 := AdjPath_snoc j b l.target l.source h1 h2
    rwa [hs] at h3

/-! ### GEDCOM candidate links never contain a self-loop -/

/-- The per-parent linking fold only appends non-self links. -/
theorem linkFold_no_self {cn : Name} :
    ∀ (ps : List Name) (acc2 : List Link × List Name),
      (∀ l ∈ acc2.1, l.source ≠ l.target) →
      ∀ l ∈ (ps.foldl (fun acc2 p =>
          let key := p ++ str "->" ++ cn
          if key ∉ acc2.2 ∧ p ≠ cn then (acc2.1 ++ [⟨p, cn⟩], setIns acc2.2 key)
          else acc2) acc2).1, l.source ≠ l.target := by
  intro ps
  induction ps with
  | nil => intro acc2 h l hl; exact h l hl
  | cons p ps ih =>
    intro acc2 h l hl
    rw [List.foldl_cons] at hl
    refine ih _ ?_ l hl
    dsimp only
    split_ifs with hc
    · intro x hx
      dsimp only at hx
      rcases List.mem_append.mp hx with hx | hx
      · exact h x hx
      · rcases List.mem_singleton.mp hx with rfl
        exact hc.2
    · exact h

/-- `childStep` preserves the absence of self-links. -/
theorem childStep_no_self {ind : List (Name × Name)} {ps : List Name}
    {acc : List Name × List Link × List Name} {c : Name}
    (h : ∀ l ∈ acc.2.1, l.source ≠ l.target) :
    ∀ l ∈ (childStep ind ps acc c).2.1, l.source ≠ l.target := by
  unfold childStep
  cases hmg : mapGet ind c with
  | none => exact h
  | some cn =>
    dsimp only
    split_ifs with h1 h2
    · exact h
    · exact h
    · dsimp only
      exact linkFold_no_self ps (acc.2.1, acc.2.2) h

/-- The per-child fold preserves the absence of self-links. -/
theorem childFold_no_self {ind : List (Name × Name)} {ps : List Name} :
    ∀ (cs : List Name) (acc : List Name × List Link × List Name),
      (∀ l ∈ acc.2.1, l.source ≠ l.target) →
      ∀ l ∈ (cs.foldl (childStep ind ps) acc).2.1, l.source ≠ l.target := by
  intro cs
  induction cs with
  | nil => intro acc h; exact h
  | cons c cs ih =>
    intro acc h
    rw [List.foldl_cons]
    exact ih _ (childStep_no_self h)

/-- `famStep` preserves the absence of self-links. -/
theorem famStep_no_self {ind : List (Name × Name)}
    {acc : List Name × List Link × List Name} {f : GFam}
    (h : ∀ l ∈ acc.2.1, l.source ≠ l.target) :
    ∀ l ∈ (famStep ind acc f).2.1, l.source ≠ l.target := by
  unfold famStep
  exact childFold_no_self f.children _ h

/-- The per-family fold preserves the absence of self-links. -/
theorem famFold_no_self {ind : List (Name × Name)} :
    ∀ (fams : List (Name × GFam)) (acc : List Name × List Link × List Name),
      (∀ l ∈ acc.2.1, l.source ≠ l.target) →
      ∀ l ∈ (fams.foldl (fun acc kf => famStep ind acc kf.2) acc).2.1,
        l.source ≠ l.target := by
  intro fams
  induction fams with
  | nil => intro acc h; exact h
  | cons kf fams ih =>
    intro acc h
    rw [List.foldl_cons]
    exact ih _ (famStep_no_self h)

/-- GEDCOM candidate links never relate a name to itself. -/
theorem gedcomCandidates_no_self {text : Name} {ns : List Name} {links : List Link}
    (h : gedcomCandidates text = some (ns, links)) :
    ∀ l ∈ links, l.source ≠ l.target := by
  unfold gedcomCandidates at h
  rcases hs : gedcomScan text with _ | st
  · rw [hs] at h; cases h
  · rw [hs] at h
    have h' : some ((st.families.foldl (fun acc kf =>
          famStep st.individuals acc kf.2) ([], [], [])).1,
        (st.families.foldl (fun acc kf =>
          famStep st.individuals acc kf.2) ([], [], [])).2.1) = some (ns, links) := h
    have hlinks : (st.families.foldl (fun acc kf =>
        famStep st.individuals acc kf.2) ([], [], [])).2.1 = links :=
      congrArg (fun r => r.2) (Option.some.inj h')
    rw [← hlinks]
    exact famFold_no_self st.families ([], [], [])
      (fun l hl => absurd hl (List.not_mem_nil _))

/-! ### The bulk cycle pass: membership in the flagged-key set -/

/-- Keys of the form `a ++ "->" ++ b` with dash-free left parts split
uniquely. -/
theorem arrow_key_inj :
    ∀ (a c : Name), '-' ∉ a → '-' ∉ c → ∀ (b d : Name),
      a ++ '-' :: '>' :: b = c ++ '-' :: '>' :: d → a = c ∧ b = d := by
  intro a
  induction a with
  | nil =>
    intro c ha hc b d h
    cases c with
    | nil =>
      rw [List.nil_append, List.nil_append] at h
      injection h with h1 h2
      injection h2 with h3 h4
      exact ⟨rfl, h4⟩
    | cons ch c' =>
      rw [List.nil_append, List.cons_append] at h
      injection h with h1 h2
      subst h1
      exact absurd (List.mem_cons_self _ _) hc
  | cons ch a' ih =>
    intro c ha hc b d h
    cases c with
    | nil =>
      rw [List.cons_append, List.nil_append] at h
      injection h with h1 h2
      subst h1
      exact absurd (List.mem_cons_self _ _) ha
    | cons ch2 c' =>
      rw [List.cons_append, List.cons_append] at h
      injection h with h1 h2
      subst h1
      obtain ⟨hac, hbd⟩ := ih c' (fun hm => ha (List.mem_cons_of_mem _ hm))
        (fun hm => hc (List.mem_cons_of_mem _ hm)) b d h2
      exact ⟨by rw [hac], hbd⟩

/-- The shape of a `node->ancestor` key as a plain cons chain. -/
theorem key_shape (a b : Name) : a ++ str "->" ++ b = a ++ '-' :: '>' :: b := by
  have h : str "->" ++ b = '-' :: '>' :: b := rfl
  rw [List.append_assoc, h]

/-- Introduction form for membership in the flagged-key set. -/
theorem mem_detect_intro {links : List Link} {node anc : Name}
    (hkeys : node ∈ (buildAdj links).map (fun p => p.1))
    (ha : anc ∈ bfsReach (buildRevAdj links) node)
    (hd : anc ∈ bfsReach (buildAdj links) node)
    (hne : anc ≠ node) :
    (node ++ str "->" ++ anc) ∈ detectCyclesIterative links := by
  simp only [detectCyclesIterative]
  rw [List.mem_flatMap]
  refine ⟨node, hkeys, ?_⟩
  simp only [nodeMarks]
  rw [List.mem_map]
  exact ⟨anc, List.mem_filter.mpr ⟨ha, by simpa using ⟨hd, hne⟩⟩, rfl⟩

/-- Elimination form for membership in the flagged-key set. -/
theorem mem_detect_decomp {links : List Link} {key : Name}
    (h : key ∈ detectCyclesIterative links) :
    ∃ node anc, node ∈ (buildAdj links).map (fun p => p.1) ∧
      anc ∈ bfsReach (buildRevAdj links) node ∧
      anc ∈ bfsReach (buildAdj links) node ∧ anc ≠ node ∧
      key = node ++ str "->" ++ anc := by
  simp only [detectCyclesIterative] at h
  rw [List.mem_flatMap] at h
  obtain ⟨node, hnode, hmark⟩ := h
  simp only [nodeMarks] at hmark
  rw [List.mem_map] at hmark
  obtain ⟨anc, hanc, hkey⟩ := hmark
  rw [List.mem_filter] at hanc
  obtain ⟨ha, hprop⟩ := hanc
  have hprop' : anc ∈ bfsReach (buildAdj links) node ∧ anc ≠ node := by
    simpa using hprop
  exact ⟨node, anc, hnode, ha, hprop'.1, hprop'.2, hkey.symm⟩

/-! ### The 51-cycle demo -/

/-- Cycle names never contain a dash. -/
theorem pname_no_dash : ∀ j, j < 51 → '-' ∉ pname j := by decide

/-- Cycle names are pairwise distinct below the cycle length. -/
theorem pname_inj_lt : ∀ i, i < 51 → ∀ j, j < 51 → pname i = pname j → i = j := by
  decide

/-- Reducing the index modulo the cycle length does not change the name. -/
theorem pname_mod (n : Nat) : pname (n % 51) = pname n := by
  unfold pname
  have h : n % 51 % 51 = n % 51 := by omega
  rw [h]

/-- On the 51-cycle, the reverse neighbour of `pname m` is the
predecessor name. -/
theorem revAdj_deepCycle_char :
    ∀ m, m < 51 → ∀ y ∈ (mapGet (buildRevAdj deepCycleLinks) (pname m)).getD [],
      y = pname ((m + 50) % 51) := by
  decide

/-- Walking `k` steps backwards on the 51-cycle lands on the name whose
index is `k` behind, modulo 51. -/
theorem rev_path_char :
    ∀ (k m : Nat), m < 51 → ∀ y,
      AdjPath (buildRevAdj deepCycleLinks) k (pname m) y →
      ∃ j, j < 51 ∧ y = pname j ∧ (j + k) % 51 = m := by
  intro k
  induction k with
  | zero =>
    intro m hm y hp
    have hy : pname m = y := hp
    exact ⟨m, hm, hy.symm, by omega⟩
  | succ kk ih =>
    intro m hm y hp
    obtain ⟨z, hz, hrest⟩ := hp
    have hzc : z = pname ((m + 50) % 51) := revAdj_deepCycle_char m hm z hz
    subst hzc
    obtain ⟨j, hj, hy, hmod⟩ := ih ((m + 50) % 51) (by omega) y hrest
    exact ⟨j, hj, hy, by omega⟩

/-- C3 (amended): on candidate edges of a successful GEDCOM import, the
edge set returned after the bulk cycle-detection pass contains no
directed cycle of length between 1 and 50 (the pass's depth bound);
`gedcom_bulk_pass_keeps_deep_cycle` shows a 51-cycle survives the pass,
refuting the unbounded form of the claim. -/
theorem gedcom_clean_links_no_bounded_cycle {text : Name} {ns : List Name}
    {ls : List Link} (h : parseGEDCOM text = some (ns, ls)) :
    ∀ (L : Nat) (a : Name), L ≤ 49 → pathBool ls (L + 1) a a = false := by
  intro L a hL
  unfold parseGEDCOM at h
  rcases hc : gedcomCandidates text with _ | r
  · rw [hc] at h
    cases h
  · rw [hc] at h
    obtain ⟨ns0, links⟩ := r
    have h2 : (if ns0 = ([] : List Name) then none
        else some (ns0, gedcomCleanLinks links)) = some (ns, ls) := h
    by_cases hemp : ns0 = []
    · rw [if_pos hemp] at h2
      cases h2
    · rw [if_neg hemp] at h2
      have hls : gedcomCleanLinks links = ls :=
        congrArg (fun p => p.2) (Option.some.inj h2)
      subst hls
      by_contra hcyc
      rw [Bool.not_eq_false] at hcyc
      obtain ⟨l, hl, hsrc, hrest⟩ := pathBool_edgePath (L + 1) a a hcyc
      have hsub : ∀ x ∈ gedcomCleanLinks links, x ∈ links := by
        intro x hx
        simp only [gedcomCleanLinks] at hx
        exact (List.mem_filter.mp hx).1
      have hlc : l ∈ links := hsub l hl
      have hrest' : EdgePath links L l.target a := EdgePath_mono hsub L _ _ hrest
      have hrev : AdjPath (buildRevAdj links) L a l.target :=
        EdgePath_revAdjPath L _ _ hrest'
      have ha1 : l.target ∈ bfsReach (buildRevAdj links) a := bfsReach_complete hL hrev
      have hfwd : AdjPath (buildAdj links) 1 a l.target := by
        refine ⟨l.target, ?_, rfl⟩
        have hn := mem_buildAdj_neighbors hlc
        rwa [hsrc] at hn
      have hd1 : l.target ∈ bfsReach (buildAdj links) a :=
        bfsReach_complete (show (1 : Nat) ≤ 49 by omega) hfwd
      have hkeys : a ∈ (buildAdj links).map (fun p => p.1) :=
        mem_buildAdj_keys.mpr ⟨l, hlc, hsrc⟩
      have hne : l.target ≠ a := by
        intro heq
        exact gedcomCandidates_no_self hc l hlc (by rw [hsrc, heq])
      have hmem := mem_detect_intro hkeys ha1 hd1 hne
      simp only [gedcomCleanLinks, List.mem_filter, decide_eq_true_eq] at hl
      have hnot := hl.2
      rw [hsrc] at hnot
      exact hnot hmem

/-- Witness for `gedcom_clean_links_no_bounded_cycle`: the two-parent
GEDCOM demo parses, and its cleaned edge set has no 1-cycle at the
child. -/
theorem gedcom_clean_links_no_bounded_cycle_witness :
    parseGEDCOM twoParentGed
      = some ([str "John Doe", str "Jane Doe", str "Kid Doe"],
          [⟨str "John Doe", str "Kid Doe"⟩, ⟨str "Jane Doe", str "Kid Doe"⟩]) ∧
    pathBool [⟨str "John Doe", str "Kid Doe"⟩, ⟨str "Jane Doe", str "Kid Doe"⟩] 1
      (str "Kid Doe") (str "Kid Doe") = false :=
  ⟨rfl, gedcom_clean_links_no_bounded_cycle
    (show parseGEDCOM twoParentGed
        = some ([str "John Doe", str "Jane Doe", str "Kid Doe"],
            [⟨str "John Doe", str "Kid Doe"⟩, ⟨str "Jane Doe", str "Kid Doe"⟩])
      from rfl) 0 (str "Kid Doe") (by omega)⟩

/-- C3 counterexample: on the 51-cycle candidate list the bulk
cycle-detection pass flags nothing — the returned edge set is the whole
cycle, which still contains a directed cycle (of length 51 > the depth
bound 50). -/
theorem gedcom_bulk_pass_keeps_deep_cycle :
    gedcomCleanLinks deepCycleLinks = deepCycleLinks ∧
    pathBool deepCycleLinks 51 (pname 0) (pname 0) = true := by
  constructor
  · have hform : gedcomCleanLinks deepCycleLinks = deepCycleLinks.filter
        (fun l => decide ((l.source ++ str "->" ++ l.target) ∉
          detectCyclesIterative deepCycleLinks)) := rfl
    rw [hform, List.filter_eq_self]
    intro l hl
    rw [decide_eq_true_eq]
    intro hkey
    have hl' : ∃ i, i < 51 ∧ l = Link.mk (pname i) (pname (i + 1)) := by
      simp only [deepCycleLinks, List.mem_map, List.mem_range] at hl
      obtain ⟨i, hi, heq⟩ := hl
      exact ⟨i, hi, heq.symm⟩
    obtain ⟨i, hi, rfl⟩ := hl'
    obtain ⟨node, anc, hnode, ha, hd, hne, hkeyEq⟩ := mem_detect_decomp hkey
    obtain ⟨l2, hl2, hsrc2⟩ := mem_buildAdj_keys.mp hnode
    have hl2' : ∃ i2, i2 < 51 ∧ l2 = Link.mk (pname i2) (pname (i2 + 1)) := by
      simp only [deepCycleLinks, List.mem_map, List.mem_range] at hl2
      obtain ⟨i2, hi2, heq⟩ := hl2
      exact ⟨i2, hi2, heq.symm⟩
    obtain ⟨i2, hi2, rfl⟩ := hl2'
    have hnode_eq : pname i2 = node := hsrc2
    have hkey2 : pname i ++ '-' :: '>' :: pname (i + 1)
        = node ++ '-' :: '>' :: anc := by
      have h1 : pname i ++ str "->" ++ pname (i + 1) = node ++ str "->" ++ anc := hkeyEq
      rw [key_shape, key_shape] at h1
      exact h1
    obtain ⟨hsplit1, hsplit2⟩ := arrow_key_inj (pname i) node (pname_no_dash i hi)
      (hnode_eq ▸ pname_no_dash i2 hi2) (pname (i + 1)) anc hkey2
    rw [← hsplit1] at ha
    obtain ⟨k, hk, hpath⟩ := bfsReach_sound ha
    obtain ⟨j, hj, hanc, hmod⟩ := rev_path_char k i hi anc hpath
    have hpp : pname ((i + 1) % 51) = pname j := by
      rw [pname_mod, hsplit2, hanc]
    have hij : (i + 1) % 51 = j := pname_inj_lt ((i + 1) % 51) (by omega) j hj hpp
    omega
  · decide

end WebFamilyTree
